import Mathlib

/-!
Verification of the MCTS engine in `mcts_vanilla.py` and `mcts_modified.py`.

Shallow embedding of the two Monte-Carlo-Tree-Search bots of the repository.

Modelling conventions:
* The mutable Python tree of `MCTSNode` objects is embedded as an arena
  (`MCTree α` = list of node records); the Python object references `parent` /
  `child_nodes` become arena indices.  Nodes are only ever created by
  `expand_leaf`, which appends them, so a parent's index is always strictly
  smaller than its child's index; loops walking `parent` references are
  embedded with a `p < i` guard (always true on arenas built by the code)
  and loops walking into children with explicit fuel.
* Python `dict` (insertion ordered) becomes an association list,
  `dict.update` replaces in place or appends (`dictUpdate`).
* Python `float` arithmetic (`/`, `math.sqrt`, `math.log`) is embedded over
  `ℝ`; `float('-inf')`-initialised best-so-far accumulators become `Option`
  accumulators (the first finite score always beats `-inf`).
* `random.choice` is embedded as an explicit oracle `pick : List α → Option α`
  handed to the functions that call it.
* A Python crash (`assert` failure, `next_state(state, None)`,
  `choice([])`, an unbounded loop running out of fuel) is embedded as `none`
  in an `Option` result.
* The external rules engine `p2_t3.Board` (not part of this repository's
  two source files) is an opaque collaborator: it is embedded as a structure
  of the pure functions the bots call on it.
-/

/-- One entry of `board.unpack_state(state)['pieces']`, as read by
`get_subbox_score` in `mcts_modified.py`. -/
structure Piece where
  outerRow : Nat
  outerCol : Nat
  innerRow : Nat
  innerCol : Nat
  player : Int
deriving DecidableEq, Repr

/-- The rules-engine collaborator (`p2_t3.Board`): the pure operations the
two bot files call on `board`.  `σ` is the opaque game-state type, `α` the
action type. -/
structure Board (σ : Type) (α : Type) where
  current_player : σ → Int
  legal_actions : σ → List α
  next_state : σ → α → σ
  is_ended : σ → Bool
  points_values : σ → Option (Int → Int)
  /-- Result of `board.unpack_state(state)['pieces']`. -/
  unpack_pieces : σ → List Piece
  /-- Result of `board.owned_boxes(state)`, a mapping `(row, col) ↦ 0/1/2`. -/
  owned_boxes : σ → Nat × Nat → Int

/-- The `mcts_node.MCTSNode` class (fields as in the Python class); `parent` and the
`child_nodes` values are arena indices into a `MCTree α`. -/
structure MCTSNode (α : Type) where
  parent : Option Nat
  parent_action : Option α
  child_nodes : List (α × Nat)
  untried_actions : List α
  visits : Nat
  wins : Nat
deriving DecidableEq, Repr

instance {α} : Inhabited (MCTSNode α) := ⟨⟨none, none, [], [], 0, 0⟩⟩

/-- The search tree: arena of nodes, the root at index 0. -/
abbrev MCTree (α : Type) := List (MCTSNode α)

/-- Read a node of the arena (out-of-range reads yield the default node;
they do not occur on the traces the theorems talk about). -/
def getN {α} (t : MCTree α) (i : Nat) : MCTSNode α :=
  (t.get? i).getD default

/-- Constant `explore_faction = 2.` (both files). -/
def explore_faction : ℝ := 2

/-- Function `ucb(node, is_opponent)` — identical in both files: `0` for the root,
otherwise `wins/visits + explore_faction * sqrt(log(parent.visits)/visits)`,
with `wins` replaced by `visits - wins` for the opponent's perspective. -/
noncomputable def ucb {α} (t : MCTree α) (i : Nat) (is_opponent : Bool) : ℝ :=
  match (getN t i).parent with
  | none => 0
  | some p =>
    let vists : ℝ := (getN t i).visits
    let wins : ℝ := if is_opponent then vists - (getN t i).wins else (getN t i).wins
    let total_vists : ℝ := (getN t p).visits
    wins / vists + explore_faction * Real.sqrt (Real.log total_vists / vists)

/-- Function `is_win(board, state, identity_of_bot)` — identical in both files.  The
`assert outcome is not None` failure on a non-terminal state is embedded as
a distinct `Except.error`. -/
def is_win {σ α} (b : Board σ α) (state : σ) (identity_of_bot : Int) :
    Except String Bool :=
  match b.points_values state with
  | none => Except.error "is_win was called on a non-terminal state"
  | some outcome => Except.ok (outcome identity_of_bot == 1)

/-- Wrapper: `is_win` with a crash collapsed to `none` (how the callers inside the
search loop experience an `AssertionError`). -/
def is_winB {σ α} (b : Board σ α) (state : σ) (identity_of_bot : Int) :
    Option Bool :=
  (is_win b state identity_of_bot).toOption

/-- Increment `visits` (and `wins` if `won`) of node `i` — the loop body of
`backpropagate`. -/
def bump {α} (won : Bool) (t : MCTree α) (i : Nat) : MCTree α :=
  t.set i { getN t i with
            visits := (getN t i).visits + 1
            wins := (getN t i).wins + (if won then 1 else 0) }

/-- The `while node is not None` walk of `backpropagate` started at node `i`.
The guard `p < i` is always true on arenas built by `expand_leaf` (parents
are created before their children). -/
def backpropFrom {α} (won : Bool) (t : MCTree α) (i : Nat) : MCTree α :=
  let t' := bump won t i
  match (getN t' i).parent with
  | none => t'
  | some p => if _h : p < i then backpropFrom won t' p else t'
termination_by i

/-- Function `backpropagate(node, won)` — identical in both files; `node` may be
`None` (then the walk does nothing). -/
def backpropagate {α} (won : Bool) (t : MCTree α) (node : Option Nat) : MCTree α :=
  match node with
  | none => t
  | some i => backpropFrom won t i

/-- The chain of arena indices visited by `backpropagate` from node `i`
(the node, its parent, …, the root), with the same `p < i` guard. -/
def chain {α} (t : MCTree α) (i : Nat) : List Nat :=
  i :: match (getN t i).parent with
       | none => []
       | some p => if _h : p < i then chain t p else []
termination_by i

/-- Python `dict.update({k: v})` on an insertion-ordered association list:
replace in place if the key is present, else append. -/
def dictUpdate {α} [DecidableEq α] (m : List (α × Nat)) (k : α) (v : Nat) :
    List (α × Nat) :=
  if m.any (fun p => p.1 == k) then
    m.map (fun p => if p.1 == k then (k, v) else p)
  else m ++ [(k, v)]

/-- Boolean well-formedness of an arena: the root (index 0) has no parent,
every other node's parent exists and has a strictly smaller index.  True of
every arena the engine builds. -/
def WFb {α} (t : MCTree α) : Bool :=
  (List.range t.length).all fun i =>
    match (getN t i).parent with
    | none => i == 0
    | some p => decide (0 < i) && decide (p < i)

/-- Field `visits` of the root node — `root_node.visits`. -/
def rootVisits {α} (t : MCTree α) : Nat := (getN t 0).visits

namespace Vanilla

/-- The child-scoring loop of `traverse_nodes` in `mcts_vanilla.py`
(lines 70-80): fold over `node.child_nodes.items()` carrying
`(best_score, best_node, best_action)`, initialised to `(0, node, None)`,
replacing on `score >= best_score`. -/
noncomputable def selectChild {α} (t : MCTree α) (isCur : Bool) :
    List (α × Nat) → ℝ × Nat × Option α → ℝ × Nat × Option α
  | [], acc => acc
  | (action, child) :: rest, acc =>
    let score := ucb t child isCur
    selectChild t isCur rest
      (if score ≥ acc.1 then (score, child, some action) else acc)

/-- Function `traverse_nodes` of `mcts_vanilla.py`.  The `while` loop is embedded
with fuel (each step descends to a child, whose arena index is strictly
larger, so `t.length + 1` fuel is always enough); `none` is a crash
(`next_state(state, None)` when `best_action` stayed `None`, or fuel ran
out). -/
noncomputable def traverse_nodes {σ α} (b : Board σ α) (t : MCTree α) :
    Nat → Nat → σ → Bool → Option (Nat × σ)
  | 0, _, _, _ => none
  | fuel + 1, node, state, is_current_player =>
    if (getN t node).child_nodes.isEmpty then some (node, state)
    else if (getN t node).untried_actions.length = 0 then some (node, state)
    else
      match selectChild t is_current_player (getN t node).child_nodes (0, node, none) with
      | (_, _, none) => none
      | (_, best_node, some best_action) =>
        traverse_nodes b t fuel best_node (b.next_state state best_action)
          (!is_current_player)

/-- Function `expand_leaf` of `mcts_vanilla.py`: pick an untried action via the
`choice` oracle `pick`, create the child, key it in `child_nodes` — note
that the source does *not* remove the action from `untried_actions` (the
removal is commented out on line 105).  Returns
`(tree, index of added child or None, state)`; `none` = oracle failure. -/
def expand_leaf {σ α} [DecidableEq α] (b : Board σ α) (pick : List α → Option α)
    (t : MCTree α) (node : Nat) (state : σ) :
    Option (MCTree α × Option Nat × σ) :=
  if (getN t node).untried_actions.isEmpty = false then
    match pick (getN t node).untried_actions with
    | none => none
    | some action =>
      let new_state := b.next_state state action
      let child_actions := b.legal_actions new_state
      let child : MCTSNode α := ⟨some node, some action, [], child_actions, 0, 0⟩
      let t' := (t.set node
        { getN t node with
          child_nodes := dictUpdate (getN t node).child_nodes action t.length }) ++ [child]
      some (t', some t.length, new_state)
  else some (t, none, state)

/-- Function `rollout` of `mcts_vanilla.py`: uniformly random playout, `choice`
embedded as the oracle `pick`; fuel bounds the loop (`none` = `choice([])`
crash or fuel exhausted). -/
def rollout {σ α} (b : Board σ α) (pick : List α → Option α) :
    Nat → σ → Option σ
  | 0, _ => none
  | fuel + 1, state =>
    if b.is_ended state = false then
      match pick (b.legal_actions state) with
      | none => none
      | some action => rollout b pick fuel (b.next_state state action)
    else some state

/-- Scoring loop of `get_best_action` in `mcts_vanilla.py`: over the root's children,
maximise `ucb(node, False)` (strict `>` against a `float('-inf')` start,
embedded as an `Option` accumulator). -/
noncomputable def bestLoop {α} (t : MCTree α) :
    List (α × Nat) → Option (ℝ × α) → Option (ℝ × α)
  | [], acc => acc
  | (taken_action, node) :: rest, acc =>
    let score := ucb t node false
    bestLoop t rest
      (match acc with
       | none => some (score, taken_action)
       | some (best_score, action) =>
         if score > best_score then some (score, taken_action)
         else some (best_score, action))

/-- Function `get_best_action(root_node)` of `mcts_vanilla.py`. -/
noncomputable def get_best_action {α} (t : MCTree α) (root_node : Nat) : Option α :=
  match bestLoop t (getN t root_node).child_nodes none with
  | none => none
  | some (_, action) => some action

/-- One iteration of the `for _ in range(num_nodes)` loop of `think` in
`mcts_vanilla.py`: selection, expansion, rollout, `is_win`, backpropagation.
`pick` is `choice` in `expand_leaf`, `pickR` is `choice` in `rollout`,
`rfuel` bounds the rollout. -/
noncomputable def thinkIter {σ α} [DecidableEq α] (b : Board σ α)
    (pick pickR : List α → Option α) (rfuel : Nat) (current_state : σ)
    (bot_identity : Int) (t : MCTree α) : Option (MCTree α) := do
  let (best_unexpanded_node, state) ←
    traverse_nodes b t (t.length + 1) 0 current_state false
  let (t', next_node, next_state) ← expand_leaf b pick t best_unexpanded_node state
  let terminal_state ← rollout b pickR rfuel next_state
  let win ← is_winB b terminal_state bot_identity
  some (backpropagate win t' next_node)

/-- The root node built by `think`:
`MCTSNode(parent=None, parent_action=None, action_list=board.legal_actions(current_state))`. -/
def rootNode {σ α} (b : Board σ α) (current_state : σ) : MCTSNode α :=
  ⟨none, none, [], b.legal_actions current_state, 0, 0⟩

/-- The first `n` iterations of `think`'s loop in `mcts_vanilla.py`,
returning the arena they build (`none` = some iteration crashed). -/
noncomputable def thinkLoop {σ α} [DecidableEq α] (b : Board σ α)
    (pick pickR : List α → Option α) (rfuel : Nat) (current_state : σ) :
    Nat → Option (MCTree α)
  | 0 => some [rootNode b current_state]
  | n + 1 =>
    (thinkLoop b pick pickR rfuel current_state n).bind
      (thinkIter b pick pickR rfuel current_state (b.current_player current_state))

end Vanilla

/-- The action type of the nested-board game as used by
`mcts_modified.rollout`: `(outer_row, outer_col, inner_row, inner_col)`. -/
abbrev A4 := Nat × Nat × Nat × Nat

namespace Modified

/-- The child-scoring loop of `traverse_nodes` in `mcts_modified.py`
(lines 52-62): fold carrying `(best_score, best_node, best_action)`,
initialised to `(float('-inf'), node, None)` — embedded as an `Option`
accumulator — replacing on strict `score > best_score`. -/
noncomputable def updAcc {α} (score : ℝ) (child : Nat) (action : α) :
    Option (ℝ × Nat × α) → Option (ℝ × Nat × α)
  | none => some (score, child, action)
  | some (best_score, best_node, best_action) =>
    if score > best_score then some (score, child, action)
    else some (best_score, best_node, best_action)

noncomputable def selectChild {α} (t : MCTree α) (is_opponent : Bool) :
    List (α × Nat) → Option (ℝ × Nat × α) → Option (ℝ × Nat × α)
  | [], acc => acc
  | (action, child) :: rest, acc =>
    selectChild t is_opponent rest (updAcc (ucb t child is_opponent) child action acc)

/-- The `while node is not None` loop of `traverse_nodes` in
`mcts_modified.py`: return on pending untried actions, return on a terminal
node, otherwise flip `is_opponent`, pick the best child and descend. -/
noncomputable def traverseLoop {σ α} (b : Board σ α) (t : MCTree α) :
    Nat → Nat → σ → Bool → Option (Nat × σ)
  | 0, _, _, _ => none
  | fuel + 1, node, state, is_opponent =>
    if (getN t node).untried_actions.isEmpty = false then some (node, state)
    else if (getN t node).untried_actions.isEmpty && (getN t node).child_nodes.isEmpty then
      some (node, state)
    else
      let is_opponent' := !is_opponent
      match selectChild t is_opponent' (getN t node).child_nodes none with
      | none => none
      | some (_, best_node, best_action) =>
        traverseLoop b t fuel best_node (b.next_state state best_action) is_opponent'

/-- Function `traverse_nodes` of `mcts_modified.py`: immediate return for a node
with no children, else the descent loop with
`is_opponent = board.current_player(state) != bot_identity`. -/
noncomputable def traverse_nodes {σ α} (b : Board σ α) (t : MCTree α)
    (fuel node : Nat) (state : σ) (bot_identity : Int) : Option (Nat × σ) :=
  if (getN t node).child_nodes.isEmpty then some (node, state)
  else traverseLoop b t fuel node state (b.current_player state != bot_identity)

/-- Function `expand_leaf` of `mcts_modified.py` — like the vanilla one but the
chosen action *is* removed from the parent's `untried_actions`
(`node.untried_actions.remove(action)`, line 89; Python `list.remove`
deletes the first occurrence, i.e. `List.erase`). -/
def expand_leaf {σ α} [DecidableEq α] (b : Board σ α) (pick : List α → Option α)
    (t : MCTree α) (node : Nat) (state : σ) :
    Option (MCTree α × Option Nat × σ) :=
  if (getN t node).untried_actions.isEmpty = false then
    match pick (getN t node).untried_actions with
    | none => none
    | some action =>
      let new_state := b.next_state state action
      let child_actions := b.legal_actions new_state
      let child : MCTSNode α := ⟨some node, some action, [], child_actions, 0, 0⟩
      let t' := (t.set node
        { getN t node with
          child_nodes := dictUpdate (getN t node).child_nodes action t.length
          untried_actions := (getN t node).untried_actions.erase action }) ++ [child]
      some (t', some t.length, new_state)
  else some (t, none, state)

/-- The eight `winning_combinations` of `get_subbox_score`, in source
order: three rows, three columns, two diagonals. -/
def winning_combinations : List (List (Nat × Nat)) :=
  [[(0, 0), (0, 1), (0, 2)],
   [(1, 0), (1, 1), (1, 2)],
   [(2, 0), (2, 1), (2, 2)],
   [(0, 0), (1, 0), (2, 0)],
   [(0, 1), (1, 1), (2, 1)],
   [(0, 2), (1, 2), (2, 2)],
   [(0, 0), (1, 1), (2, 2)],
   [(0, 2), (1, 1), (2, 0)]]

/-- The dictionary `b` of `get_subbox_score`: all nine cells `0`, then each
unpacked piece lying in sub-board `(board_row, board_col)` writes its
player number at its inner coordinates (later pieces overwrite). -/
def buildB (pieces : List Piece) (board_row board_col : Nat) :
    Nat × Nat → Int :=
  pieces.foldl
    (fun bmap piece =>
      if piece.outerRow = board_row ∧ piece.outerCol = board_col then
        fun pos =>
          if pos = (piece.innerRow, piece.innerCol) then piece.player else bmap pos
      else bmap)
    (fun _ => 0)

/-- The `for combination in winning_combinations` loop of
`get_subbox_score` with its `break`: on a line fully owned by either
identity both running scores are *zeroed* and scanning stops. -/
def subboxScan (bmap : Nat × Nat → Int) (player bot : Int) :
    List (List (Nat × Nat)) → Int → Int → Int × Int
  | [], player_score, bot_score => (player_score, bot_score)
  | combination :: rest, player_score, bot_score =>
    let values := combination.map bmap
    if values.all (fun v => v == 0) then
      subboxScan bmap player bot rest
        (player_score + 1 + (if player ∈ values then 1 else 0))
        (bot_score + 1 + (if bot ∈ values then 1 else 0))
    else if values.all (fun v => v == player) then (0, 0)
    else if values.all (fun v => v == bot) then (0, 0)
    else if player ∈ values ∧ bot ∈ values then
      subboxScan bmap player bot rest player_score bot_score
    else
      subboxScan bmap player bot rest
        (player_score + (if player ∈ values then 1 else 0))
        (bot_score + (if bot ∈ values then 1 else 0))

/-- Function `get_subbox_score(board, state, action, bot_identity)` of
`mcts_modified.py` (the returned debug string is dropped): score the
sub-board addressed by `action[0], action[1]`. -/
def get_subbox_score {σ} (b : Board σ A4) (state : σ) (action : A4)
    (bot_identity : Int) : Int :=
  let board_row := action.1
  let board_col := action.2.1
  let bmap := buildB (b.unpack_pieces state) board_row board_col
  let player := bot_identity
  let bot := 3 - bot_identity
  let is_player_turn := (3 - b.current_player state) == player
  let scores := subboxScan bmap player bot winning_combinations 0 0
  if is_player_turn then scores.1 - scores.2 else scores.2 - scores.1

/-- Python `all(...)` on a list of ints: true iff every element is truthy
(non-zero). -/
def pyAll (l : List Int) : Bool := l.all (fun v => v ≠ 0)

/-- CPython semantics of `all(row) is player` in `get_box_score`: `all`
returns a `bool` object (`True`/`False`) which is never *identical* (`is`)
to the `int` objects `1` or `2`, so the comparison is always `False`. -/
def pyBoolIsInt (_b : Bool) (_n : Int) : Bool := false

/-- One line of `get_box_score`: the two (unsatisfiable) `is`-guarded early
returns, then the split/player/bot/empty accumulation.  `Except.error v`
models `return v`. -/
def boxLineStep (is_player_turn : Bool) (player bot : Int)
    (line : List Int) (acc : Int × Int) : Except Int (Int × Int) :=
  if pyBoolIsInt (pyAll line) player then
    Except.error (if is_player_turn then 8 else -8)
  else if pyBoolIsInt (pyAll line) bot then
    Except.error (if is_player_turn then -8 else 8)
  else if player ∈ line ∧ bot ∈ line then Except.ok acc
  else if player ∈ line then Except.ok (acc.1 + 1, acc.2)
  else if bot ∈ line then Except.ok (acc.1, acc.2 + 1)
  else Except.ok (acc.1 + 1, acc.2 + 1)

/-- Function `get_box_score(board, state, bot_identity)` of `mcts_modified.py`:
scan the three rows, three columns and two diagonals of
`board.owned_boxes(state)` in source order with early return. -/
def get_box_score {σ α} (b : Board σ α) (state : σ) (bot_identity : Int) : Int :=
  let board_state := b.owned_boxes state
  let player := bot_identity
  let bot := 3 - bot_identity
  let is_player_turn := b.current_player state == player
  let lines : List (List Int) :=
    [[board_state (0, 0), board_state (0, 1), board_state (0, 2)],
     [board_state (1, 0), board_state (1, 1), board_state (1, 2)],
     [board_state (2, 0), board_state (2, 1), board_state (2, 2)],
     [board_state (0, 0), board_state (1, 0), board_state (2, 0)],
     [board_state (0, 1), board_state (1, 1), board_state (2, 1)],
     [board_state (0, 2), board_state (1, 2), board_state (2, 2)],
     [board_state (0, 0), board_state (1, 1), board_state (2, 2)],
     [board_state (0, 2), board_state (1, 1), board_state (2, 0)]]
  match lines.foldlM (fun acc line => boxLineStep is_player_turn player bot line acc)
      ((0 : Int), (0 : Int)) with
  | Except.error v => v
  | Except.ok scores =>
    if is_player_turn then scores.1 - scores.2 else scores.2 - scores.1

/-- Accumulator update of the rollout's best-action fold (`score` against a
`float('-inf')`-initialised `best_score`, strict `>`). -/
def scanUpd (score : Int) (action : A4) :
    Option (Int × A4) → Option (Int × A4)
  | none => some (score, action)
  | some (best_score, best_action) =>
    if score > best_score then some (score, action)
    else some (best_score, best_action)

/-- The `for action in actions` loop of `rollout` in `mcts_modified.py`
(bot's turn): short-circuit return (`Sum.inl`) of the first resulting
state that is terminal and a win for the bot, otherwise keep the
strictly-best `get_subbox_score`; `none` = `is_win` assertion crash. -/
def scanActions {σ} (b : Board σ A4) (bot_identity : Int) (state : σ) :
    List A4 → Option (Int × A4) → Option (σ ⊕ Option (Int × A4))
  | [], best => some (Sum.inr best)
  | action :: rest, best =>
    let next_state := b.next_state state action
    let winChk : Option Bool :=
      if b.is_ended next_state then is_winB b next_state bot_identity else some false
    match winChk with
    | none => none
    | some true => some (Sum.inl next_state)
    | some false =>
      scanActions b bot_identity state rest
        (scanUpd (get_subbox_score b next_state action bot_identity) action best)

/-- The `while not board.is_ended(state)` loop of `rollout` in
`mcts_modified.py`: `(1, 1, 1, 1)` is played whenever legal; on the
opponent's turns a `choice(actions)` (oracle `pickR`) is played; on the
bot's turns the `scanActions` greedy step runs.  `none` = crash or fuel
exhausted. -/
def rolloutLoop {σ} (b : Board σ A4) (pickR : List A4 → Option A4)
    (bot_identity : Int) : Nat → σ → Bool → Option σ
  | 0, _, _ => none
  | fuel + 1, state, is_player_turn =>
    if b.is_ended state = false then
      let actions := b.legal_actions state
      if (1, 1, 1, 1) ∈ actions then
        rolloutLoop b pickR bot_identity fuel
          (b.next_state state (1, 1, 1, 1)) (!is_player_turn)
      else if is_player_turn = false then
        match pickR actions with
        | none => none
        | some a =>
          rolloutLoop b pickR bot_identity fuel (b.next_state state a) (!is_player_turn)
      else
        match scanActions b bot_identity state actions none with
        | none => none
        | some (Sum.inl terminal) => some terminal
        | some (Sum.inr none) => none
        | some (Sum.inr (some (_, best_action))) =>
          rolloutLoop b pickR bot_identity fuel
            (b.next_state state best_action) (!is_player_turn)
    else some state

/-- Function `rollout(board, state, bot_identity)` of `mcts_modified.py`:
`is_player_turn` initialised from `board.current_player(state)`. -/
def rollout {σ} (b : Board σ A4) (pickR : List A4 → Option A4)
    (rfuel : Nat) (state : σ) (bot_identity : Int) : Option σ :=
  rolloutLoop b pickR bot_identity rfuel state
    (b.current_player state == bot_identity)

/-- The scoring loop of `get_best_action` in `mcts_modified.py`:
`score = node.wins / node.visits`, strict `>` against a `float('-inf')`
start (an `Option` accumulator). -/
noncomputable def updPair {α} (score : ℝ) (action : α) :
    Option (ℝ × α) → Option (ℝ × α)
  | none => some (score, action)
  | some (best_score, best_action) =>
    if score > best_score then some (score, action)
    else some (best_score, best_action)

noncomputable def bestLoop {α} (t : MCTree α) :
    List (α × Nat) → Option (ℝ × α) → Option (ℝ × α)
  | [], acc => acc
  | (action, node) :: rest, acc =>
    bestLoop t rest
      (updPair (((getN t node).wins : ℝ) / ((getN t node).visits : ℝ)) action acc)

/-- Function `get_best_action(root_node)` of `mcts_modified.py`: the root child with
the best `wins/visits`. -/
noncomputable def get_best_action {α} (t : MCTree α) (root_node : Nat) : Option α :=
  match bestLoop t (getN t root_node).child_nodes none with
  | none => none
  | some (_, action) => some action

end Modified

/-! ## Specification model for the heuristic-greedy rollout (claim C7)

The claim describes the rollout's behaviour; `rolloutSpec` below follows the
claim's words (not the source) so the two can be compared. -/

/-- Argmax (strict improvement, first-seen wins ties) of the sub-box
heuristic of each resulting state, evaluated from the perspective of
`mover`, as the claim words it. -/
def specArgmax {σ} (b : Board σ A4) (mover : Int) (state : σ) :
    List A4 → Option (Int × A4) → Option (Int × A4)
  | [], best => best
  | action :: rest, best =>
    specArgmax b mover state rest
      (Modified.scanUpd
        (Modified.get_subbox_score b (b.next_state state action) action mover)
        action best)

/-- Spec-side rollout, following the words of claim C7: at *every* step
(whoever is to move) enumerate the legal actions, return immediately the
first resulting state that is terminal and a win for the bot identity,
otherwise take the action with maximal heuristic value from the current
mover's perspective (ties broken by first-seen order). -/
def rolloutSpec {σ} (b : Board σ A4) (bot_identity : Int) : Nat → σ → Option σ
  | 0, _ => none
  | fuel + 1, state =>
    if b.is_ended state then some state
    else
      let mover := b.current_player state
      let actions := b.legal_actions state
      match actions.find? (fun a =>
          b.is_ended (b.next_state state a)
            && (is_winB b (b.next_state state a) bot_identity == some true)) with
      | some a => some (b.next_state state a)
      | none =>
        match specArgmax b mover state actions none with
        | none => none
        | some (_, best_action) =>
          rolloutSpec b bot_identity fuel (b.next_state state best_action)

/-! ## Concrete fixtures used by the counterexamples and witnesses -/

/-- Oracle for `random.choice` that deterministically picks the first
element (a legitimate refinement of `choice` on non-empty lists). -/
def pickFirst {α} (l : List α) : Option α := l.head?

/-- Oracle for `random.choice` that deterministically picks the last
element (a legitimate refinement of `choice` on non-empty lists). -/
def pickLast {α} (l : List α) : Option α := l.getLast?

/-- Minimal rules engine over `Nat` states and `Nat` actions; only
`next_state` matters to the traversal theorems that use it. -/
def BN : Board Nat Nat where
  current_player _ := 1
  legal_actions _ := []
  next_state _ a := 100 + a
  is_ended _ := true
  points_values _ := none
  unpack_pieces _ := []
  owned_boxes _ _ := 0

/-- Arena for claim C1: a root (index 0) that has *both* a pending untried
action `7` and an existing child (action `0` ↦ index 1); every node visited
once, no wins. -/
def tC1 : MCTree Nat :=
  [⟨none, none, [(0, 1)], [7], 1, 0⟩,
   ⟨some 0, some 0, [], [], 1, 0⟩]

/-- Arena for claim C8: a root with a pending untried action and two
children of *equal* UCB score (both `visits = 1, wins = 0`, root
`visits = 1` so the exploration term is `2·√(ln 1) = 0`). -/
def tC8 : MCTree Nat :=
  [⟨none, none, [(10, 1), (11, 2)], [7], 1, 0⟩,
   ⟨some 0, some 10, [], [], 1, 0⟩,
   ⟨some 0, some 11, [], [], 1, 0⟩]

/-- Arena for claim C3: root visited 5 times with child A (action `10`,
4 visits, 4 wins, win rate 1) and child B (action `11`, 1 visit, 0 wins,
win rate 0). -/
def tC3 : MCTree Nat :=
  [⟨none, none, [(10, 1), (11, 2)], [], 5, 0⟩,
   ⟨some 0, some 10, [], [], 4, 4⟩,
   ⟨some 0, some 11, [], [], 1, 0⟩]

/-- Arena for the spec's decision scenario (claim C3): action A (`20`)
with 10 visits / 6 wins, action B (`21`) with 5 visits / 4 wins. -/
def tScen : MCTree Nat :=
  [⟨none, none, [(20, 1), (21, 2)], [], 15, 0⟩,
   ⟨some 0, some 20, [], [], 10, 6⟩,
   ⟨some 0, some 21, [], [], 5, 4⟩]

/-- Arena for claim C4: a root whose only untried action is `5`. -/
def tC4 : MCTree Nat := [⟨none, none, [], [5], 0, 0⟩]

/-- Arena for claim C6: a root with no untried actions and no children. -/
def tC6 : MCTree Nat := [⟨none, none, [], [], 0, 0⟩]

/-- Arena for claim C9: a root and one child (action `3` ↦ index 1). -/
def tC9 : MCTree Nat :=
  [⟨none, none, [(3, 1)], [], 2, 1⟩,
   ⟨some 0, some 3, [], [4], 1, 0⟩]

/-- Rules engine for claim C5: from state 0 (the only non-terminal state,
player 1 to move) actions `0` and `1` lead to the terminal states `1`
and `2`, both losses for player 1. -/
def BC5 : Board Nat Nat where
  current_player _ := 1
  legal_actions s := if s = 0 then [0, 1] else []
  next_state _ a := a + 1
  is_ended s := s != 0
  points_values s := if s = 0 then none else some fun p => if p = 1 then 0 else 1
  unpack_pieces _ := []
  owned_boxes _ _ := 0

/-- Rules engine for claim C2 (`get_subbox_score` side): state 0 unpacks to
a full first row of player 1 in sub-board (0,0) plus a stray player-2 piece
in the same sub-board; player 2 is to move. -/
def BC2 : Board Nat A4 where
  current_player _ := 2
  legal_actions _ := []
  next_state s _ := s
  is_ended _ := true
  points_values _ := none
  unpack_pieces _ := [⟨0, 0, 0, 0, 1⟩, ⟨0, 0, 0, 1, 1⟩, ⟨0, 0, 0, 2, 1⟩, ⟨0, 0, 2, 2, 2⟩]
  owned_boxes _ _ := 0

/-- Rules engine for claim C2 (`get_box_score` side): `owned_boxes` has the
whole first row owned by player 1, who is to move. -/
def BC2b : Board Nat Nat where
  current_player _ := 1
  legal_actions _ := []
  next_state s _ := s
  is_ended _ := true
  points_values _ := none
  unpack_pieces _ := []
  owned_boxes _ pos := if pos.1 = 0 then 1 else 0

/-- Rules engine for claim C7: at state 0 the *opponent* (player 2) of the
bot (player 1) is to move; the two legal actions end the game at states 1
(sub-board (0,0), heuristic +3 for the mover) and 2 (sub-board (0,1),
heuristic −1 for the mover); both are wins for player 2. -/
def BC7 : Board Nat A4 where
  current_player s := if s = 0 then 2 else 1
  legal_actions s := if s = 0 then [(0, 0, 0, 0), (0, 1, 0, 0)] else []
  next_state s a :=
    if s = 0 then (if a = (0, 0, 0, 0) then 1 else if a = (0, 1, 0, 0) then 2 else 0)
    else 0
  is_ended s := s != 0
  points_values s := if s = 0 then none else some fun p => if p = 2 then 1 else 0
  unpack_pieces s :=
    if s = 1 then [⟨0, 1, 1, 1, 1⟩, ⟨0, 0, 0, 0, 2⟩]
    else if s = 2 then [⟨0, 1, 1, 1, 1⟩, ⟨0, 1, 0, 0, 2⟩]
    else [⟨0, 1, 1, 1, 1⟩]
  owned_boxes _ _ := 0

/-- Rules engine for claim C10: state 0 is non-terminal (`points_values`
undefined), state 1 is terminal and a win for player 1. -/
def BC10 : Board Nat Nat where
  current_player _ := 1
  legal_actions _ := []
  next_state s _ := s
  is_ended s := s != 0
  points_values s := if s = 0 then none else some fun p => if p = 1 then 1 else 0
  unpack_pieces _ := []
  owned_boxes _ _ := 0

/-! ## Arena access lemmas -/

theorem getN_set_self {α} (t : MCTree α) (i : Nat) (n : MCTSNode α)
    (h : i < t.length) : getN (t.set i n) i = n := by
  simp [getN, List.getElem?_set_eq_of_lt _ h]

theorem getN_set_ne {α} (t : MCTree α) (i j : Nat) (n : MCTSNode α)
    (h : i ≠ j) : getN (t.set i n) j = getN t j := by
  simp [getN, List.getElem?_set_ne h]

theorem getN_append_lt {α} (t t2 : MCTree α) (j : Nat) (h : j < t.length) :
    getN (t ++ t2) j = getN t j := by
  simp [getN, List.getElem?_append_left h]

theorem getN_append_len {α} (t : MCTree α) (c : MCTSNode α) :
    getN (t ++ [c]) t.length = c := by
  simp [getN, List.getElem?_concat_length]

theorem getN_of_le {α} (t : MCTree α) (j : Nat) (h : t.length ≤ j) :
    getN t j = default := by
  simp [getN, List.getElem?_eq_none_iff.2 h]

theorem getN_set_visits {α} (t : MCTree α) (i j : Nat) (n : MCTSNode α)
    (hv : n.visits = (getN t i).visits) :
    (getN (t.set i n) j).visits = (getN t j).visits := by
  by_cases hij : i = j
  · subst hij
    by_cases hlen : i < t.length
    · rw [getN_set_self t i n hlen, hv]
    · rw [List.set_eq_of_length_le (Nat.le_of_not_lt hlen)]
  · rw [getN_set_ne t i j n hij]

/-! ## Claim C10 -/

/-- C10: for every state whose win outcome is undefined (`points_values`
returns `None`, i.e. the state is non-terminal), `is_win` fails fast with
the distinct precondition-violated error (`AssertionError` with the message
below) instead of returning a boolean; for every state with a recorded
outcome, `is_win` returns `ok` of whether the outcome for the given bot
identity equals 1. -/
theorem C10_is_win_contract {σ α : Type} (b : Board σ α) (state : σ)
    (identity_of_bot : Int) :
    (b.points_values state = none →
      is_win b state identity_of_bot =
        Except.error "is_win was called on a non-terminal state")
    ∧ (∀ outcome, b.points_values state = some outcome →
      is_win b state identity_of_bot = Except.ok (outcome identity_of_bot == 1)) :=
  ⟨fun h => by simp [is_win, h], fun outcome h => by simp [is_win, h]⟩

/-- Witness for C10 on the concrete rules engine `BC10`: the non-terminal
state 0 raises, the terminal winning state 1 yields `ok true`. -/
theorem C10_is_win_contract_witness :
    is_win BC10 0 1 = Except.error "is_win was called on a non-terminal state"
    ∧ is_win BC10 1 1 = Except.ok true := by
  refine ⟨(C10_is_win_contract BC10 0 1).1 rfl, ?_⟩
  have h := (C10_is_win_contract BC10 1 1).2 (fun p => if p = 1 then 1 else 0) rfl
  simpa using h

/-! ## Claim C2 -/

/-- C2 (code bug): on the sub-board `(0,0)` of `BC2`, whose first row is
fully owned by the evaluating player 1, `get_subbox_score` returns `0` —
the `elif all(value == player ...)` branch *zeroes both running scores*
before breaking instead of contributing the dominant constant 8.  And
`get_box_score` on a box state whose first row is fully owned by player 1
returns `6`: its `all(row) is player` guard compares the `bool` returned by
`all` to the `int` player by identity, which is always false, so the
`return 8` is unreachable and the scan falls through to line counting. -/
theorem C2_heuristic_dominance_bug :
    Modified.get_subbox_score BC2 0 (0, 0, 0, 0) 1 = 0
    ∧ Modified.get_subbox_score BC2 0 (0, 0, 0, 0) 1 ≠ 8
    ∧ Modified.get_box_score BC2b 0 1 = 6
    ∧ Modified.get_box_score BC2b 0 1 ≠ 8 := by
  refine ⟨by decide, by decide, by decide, by decide⟩

/-! ## Claim C6 -/

/-- C6 (counterexample): called on the node `tC6[0]`, whose
`untried_actions` is empty, `expand_leaf` of both files returns
`(None, state)` — the node slot of the result is `None`, *not* the same
node — refuting the claim that the no-op case returns the same node. -/
theorem C6_counterexample :
    (Modified.expand_leaf BN pickFirst tC6 0 0).map (fun r => r.2.1) = some none
    ∧ (Vanilla.expand_leaf BN pickFirst tC6 0 0).map (fun r => r.2.1) = some none := by
  constructor <;> rfl

/-- C6 (amended): for every node whose `untried_actions` is empty,
`expand_leaf` (both files) leaves the tree and state unchanged but returns
`None` in the node position (the callers' `backpropagate` then treats the
`None` as a no-op). -/
theorem C6_amended {σ α : Type} [DecidableEq α] (b : Board σ α)
    (pick : List α → Option α) (t : MCTree α) (node : Nat) (state : σ)
    (h : (getN t node).untried_actions = []) :
    Vanilla.expand_leaf b pick t node state = some (t, none, state)
    ∧ Modified.expand_leaf b pick t node state = some (t, none, state) := by
  constructor <;> simp [Vanilla.expand_leaf, Modified.expand_leaf, h]

/-- Witness for C6 (amended) on the concrete arena `tC6`. -/
theorem C6_amended_witness :
    Vanilla.expand_leaf BN pickFirst tC6 0 0 = some (tC6, none, 0)
    ∧ Modified.expand_leaf BN pickFirst tC6 0 0 = some (tC6, none, 0) :=
  C6_amended BN pickFirst tC6 0 0 rfl

/-! ## Claim C4 -/

/-- C4 (counterexample): expanding the root of `tC4` (untried action `5`)
with `mcts_vanilla.py`'s `expand_leaf` leaves `5` in `untried_actions`
while also adding the child keyed `5` (the removal is commented out in the
source), so the intersection of the children keys with `untried_actions`
is `[5]`, not empty — refuting the disjointness claim. -/
theorem C4_counterexample :
    (Vanilla.expand_leaf BN pickFirst tC4 0 0).map
      (fun r => ((getN r.1 0).child_nodes.map Prod.fst).inter
        (getN r.1 0).untried_actions) = some [5] := by
  decide

/-- Disjointness of one node's children keys and untried actions (the
invariant of claim C4). -/
def NodeDisjoint {α} (n : MCTSNode α) : Prop :=
  ∀ a ∈ n.child_nodes.map Prod.fst, a ∉ n.untried_actions

theorem dictUpdate_keys {α} [DecidableEq α] (m : List (α × Nat)) (k : α)
    (v : Nat) : ∀ x ∈ (dictUpdate m k v).map Prod.fst,
      x ∈ m.map Prod.fst ∨ x = k := by
  intro x hx
  unfold dictUpdate at hx
  by_cases h : m.any (fun p => p.1 == k)
  · rw [if_pos h] at hx
    rcases List.mem_map.1 hx with ⟨q, hq, hqx⟩
    rcases List.mem_map.1 hq with ⟨p, hp, hpq⟩
    by_cases hpk : p.1 = k
    · right
      rw [← hqx, ← hpq]
      simp [hpk]
    · left
      rw [← hqx, ← hpq]
      simp only [hpk, beq_iff_eq, if_neg hpk]
      exact List.mem_map.2 ⟨p, hp, rfl⟩
  · rw [if_neg h] at hx
    rcases List.mem_map.1 hx with ⟨q, hq, hqx⟩
    rcases List.mem_append.1 hq with hq1 | hq2
    · exact Or.inl (hqx ▸ List.mem_map.2 ⟨q, hq1, rfl⟩)
    · right
      rw [← hqx]
      simp only [List.mem_singleton] at hq2
      simp [hq2]

theorem getN_concat_at_length {α} (t : MCTree α) (i : Nat)
    (n c : MCTSNode α) : getN ((t.set i n) ++ [c]) t.length = c := by
  have h := getN_append_len (t.set i n) c
  rwa [List.length_set] at h

/-- C4 (amended): in `mcts_modified.py` the chosen action is removed from
the parent's `untried_actions` in the same `expand_leaf` step in which the
child keyed by it is added, so disjointness of children keys and untried
actions is preserved at every node (given a disjoint arena whose expanded
node has duplicate-free `untried_actions`, as the engine guarantees); in
`mcts_vanilla.py` the removal is commented out and the invariant fails
(see the counterexample). -/
theorem C4_amended {σ α : Type} [DecidableEq α] (b : Board σ α)
    (pick : List α → Option α) (t : MCTree α) (node : Nat) (state : σ)
    (t' : MCTree α) (oj : Option Nat) (s' : σ)
    (hrun : Modified.expand_leaf b pick t node state = some (t', oj, s'))
    (hnodup : (getN t node).untried_actions.Nodup)
    (hdisj : ∀ k, NodeDisjoint (getN t k)) :
    ∀ k, NodeDisjoint (getN t' k) := by
  unfold Modified.expand_leaf at hrun
  by_cases hemp : (getN t node).untried_actions.isEmpty = false
  · rw [if_pos hemp] at hrun
    cases hpick : pick (getN t node).untried_actions with
    | none => rw [hpick] at hrun; exact absurd hrun (by simp)
    | some action =>
      rw [hpick] at hrun
      simp only [Option.some.injEq, Prod.mk.injEq] at hrun
      obtain ⟨ht', _, _⟩ := hrun
      intro k
      rw [← ht']
      rcases Nat.lt_trichotomy k t.length with hk | hk | hk
      · rw [getN_append_lt _ _ k (by simpa using hk)]
        by_cases hknode : node = k
        · subst hknode
          rw [getN_set_self _ _ _ hk]
          intro x hx hmem
          rcases dictUpdate_keys _ _ _ x hx with hold | hnew
          · exact hdisj node x hold (List.mem_of_mem_erase hmem)
          · subst hnew
            exact hnodup.not_mem_erase hmem
        · rw [getN_set_ne _ _ _ _ hknode]
          exact hdisj k
      · subst hk
        rw [getN_concat_at_length]
        intro x hx
        simp at hx
      · rw [getN_of_le]
        · intro x hx
          simp [default] at hx
        · simp only [List.length_append, List.length_set, List.length_singleton]
          omega
  · rw [if_neg hemp] at hrun
    simp only [Option.some.injEq, Prod.mk.injEq] at hrun
    obtain ⟨ht', _, _⟩ := hrun
    subst ht'
    exact hdisj

/-- Witness for C4 (amended) on a concrete modified expansion of `tC4`:
disjointness holds at the expanded root and at the new child. -/
theorem C4_amended_witness :
    NodeDisjoint (getN
      [(⟨none, none, [(5, 1)], [], 0, 0⟩ : MCTSNode Nat),
       ⟨some 0, some 5, [], [], 0, 0⟩] 0)
    ∧ NodeDisjoint (getN
      [(⟨none, none, [(5, 1)], [], 0, 0⟩ : MCTSNode Nat),
       ⟨some 0, some 5, [], [], 0, 0⟩] 1) := by
  have h := C4_amended BN pickFirst tC4 0 0 _ (some 1) 105 (by rfl) (by decide)
    (by
      intro k
      match k with
      | 0 => intro a ha; simp [getN, tC4, NodeDisjoint] at ha
      | n + 1 => intro a ha; simp [getN, tC4, default] at ha)
  exact ⟨h 0, h 1⟩

/-! ## Claim C7 -/

/-- C7 (counterexample): at state 0 of `BC7` the *opponent* of the bot is
to move; the heuristic-greedy step the claim describes would take the
action of maximal mover-perspective heuristic (score 3 vs −1, hence
`(0,0,0,0)`, ending at state 1), but the source rollout plays a random
(`choice`-oracle) move on opponent turns and, with the last-element
oracle, ends at state 2 instead. -/
theorem C7_counterexample :
    Modified.rollout BC7 pickLast 3 0 1 = some 2
    ∧ rolloutSpec BC7 1 3 0 = some 1
    ∧ Modified.rollout BC7 pickLast 3 0 1 ≠ rolloutSpec BC7 1 3 0 := by
  refine ⟨by decide, by decide, by decide⟩

/-- The property "playing `a` from `state` ends the game with a win for
the bot" tested by the short-circuit of the modified rollout. -/
def IsWinningMove {σ} (b : Board σ A4) (bot_identity : Int) (state : σ)
    (a : A4) : Prop :=
  b.is_ended (b.next_state state a) = true
  ∧ is_winB b (b.next_state state a) bot_identity = some true

instance {σ} (b : Board σ A4) (bot_identity : Int) (state : σ) (a : A4) :
    Decidable (IsWinningMove b bot_identity state a) := by
  unfold IsWinningMove; infer_instance

/-- Shorthand for the heuristic the modified rollout assigns to a
candidate action: the sub-box score of the resulting state. -/
def rolloutScore {σ} (b : Board σ A4) (bot_identity : Int) (state : σ)
    (a : A4) : Int :=
  Modified.get_subbox_score b (b.next_state state a) a bot_identity


theorem scanActions_inl {σ} (b : Board σ A4) (bot_identity : Int) (state : σ) :
    ∀ (acts : List A4) (best : Option (Int × A4)) (ts : σ),
      Modified.scanActions b bot_identity state acts best = some (Sum.inl ts) →
      ∃ l1 a l2, acts = l1 ++ a :: l2 ∧ IsWinningMove b bot_identity state a
        ∧ ts = b.next_state state a
        ∧ ∀ y ∈ l1, ¬ IsWinningMove b bot_identity state y := by
  intro acts
  induction acts with
  | nil => intro best ts h; simp [Modified.scanActions] at h
  | cons a0 rest ih =>
    intro best ts h
    by_cases hend : b.is_ended (b.next_state state a0) = true
    · cases hwin : is_winB b (b.next_state state a0) bot_identity with
      | none => simp [Modified.scanActions, hend, hwin] at h
      | some w =>
        cases w with
        | true =>
          have hts : b.next_state state a0 = ts := by
            simpa [Modified.scanActions, hend, hwin] using h
          exact ⟨[], a0, rest, rfl, ⟨hend, hwin⟩, hts.symm, by simp⟩
        | false =>
          have h' : Modified.scanActions b bot_identity state rest
              (Modified.scanUpd
                (Modified.get_subbox_score b (b.next_state state a0) a0 bot_identity)
                a0 best) = some (Sum.inl ts) := by
            simpa [Modified.scanActions, hend, hwin] using h
          have hnot : ¬ IsWinningMove b bot_identity state a0 := by
            intro hw
            rw [hw.2] at hwin
            simp at hwin
          rcases ih _ _ h' with ⟨l1, a, l2, he, hw, hts, hl1⟩
          refine ⟨a0 :: l1, a, l2, by rw [he]; rfl, hw, hts, ?_⟩
          intro y hy
          rcases List.mem_cons.1 hy with hy0 | hy1
          · exact hy0 ▸ hnot
          · exact hl1 y hy1
    · have h' : Modified.scanActions b bot_identity state rest
          (Modified.scanUpd
            (Modified.get_subbox_score b (b.next_state state a0) a0 bot_identity)
            a0 best) = some (Sum.inl ts) := by
        simpa [Modified.scanActions, hend] using h
      have hnot : ¬ IsWinningMove b bot_identity state a0 := fun hw => hend hw.1
      rcases ih _ _ h' with ⟨l1, a, l2, he, hw, hts, hl1⟩
      refine ⟨a0 :: l1, a, l2, by rw [he]; rfl, hw, hts, ?_⟩
      intro y hy
      rcases List.mem_cons.1 hy with hy0 | hy1
      · exact hy0 ▸ hnot
      · exact hl1 y hy1

theorem scanActions_inr_nowin {σ} (b : Board σ A4) (bot_identity : Int)
    (state : σ) :
    ∀ (acts : List A4) (best : Option (Int × A4)) (r : Option (Int × A4)),
      Modified.scanActions b bot_identity state acts best = some (Sum.inr r) →
      ∀ x ∈ acts, ¬ IsWinningMove b bot_identity state x := by
  intro acts
  induction acts with
  | nil => intro best r _ x hx; simp at hx
  | cons a0 rest ih =>
    intro best r h x hx
    by_cases hend : b.is_ended (b.next_state state a0) = true
    · cases hwin : is_winB b (b.next_state state a0) bot_identity with
      | none => simp [Modified.scanActions, hend, hwin] at h
      | some w =>
        cases w with
        | true => simp [Modified.scanActions, hend, hwin] at h
        | false =>
          have h' := (by
            simpa [Modified.scanActions, hend, hwin] using h :
            Modified.scanActions b bot_identity state rest
              (Modified.scanUpd
                (Modified.get_subbox_score b (b.next_state state a0) a0 bot_identity)
                a0 best) = some (Sum.inr r))
          rcases List.mem_cons.1 hx with hx0 | hx1
          · subst hx0
            intro hw
            rw [hw.2] at hwin
            simp at hwin
          · exact ih _ _ h' x hx1
    · have h' := (by
        simpa [Modified.scanActions, hend] using h :
        Modified.scanActions b bot_identity state rest
          (Modified.scanUpd
            (Modified.get_subbox_score b (b.next_state state a0) a0 bot_identity)
            a0 best) = some (Sum.inr r))
      rcases List.mem_cons.1 hx with hx0 | hx1
      · subst hx0
        exact fun hw => hend hw.1
      · exact ih _ _ h' x hx1

theorem scanActions_inr_best {σ} (b : Board σ A4) (bot_identity : Int)
    (state : σ) :
    ∀ (acts : List A4) (bs : Int) (ba : A4) (sc : Int) (a : A4),
      Modified.scanActions b bot_identity state acts (some (bs, ba)) =
        some (Sum.inr (some (sc, a))) →
      ((sc = bs ∧ a = ba) ∨
        ∃ l1 l2, acts = l1 ++ a :: l2 ∧ sc = rolloutScore b bot_identity state a
          ∧ bs < sc ∧ (∀ x ∈ l1, rolloutScore b bot_identity state x < sc))
      ∧ bs ≤ sc ∧ (∀ x ∈ acts, rolloutScore b bot_identity state x ≤ sc) := by
  intro acts
  induction acts with
  | nil =>
    intro bs ba sc a h
    have h' : bs = sc ∧ ba = a := by simpa [Modified.scanActions] using h
    obtain ⟨h1, h2⟩ := h'
    exact ⟨Or.inl ⟨h1.symm, h2.symm⟩, le_of_eq h1, by simp⟩
  | cons a0 rest ih =>
    intro bs ba sc a h
    have step :
        ∀ best', Modified.scanUpd
            (Modified.get_subbox_score b (b.next_state state a0) a0 bot_identity)
            a0 (some (bs, ba)) = best' →
          Modified.scanActions b bot_identity state rest best' =
            some (Sum.inr (some (sc, a))) →
          ((sc = bs ∧ a = ba) ∨
            ∃ l1 l2, a0 :: rest = l1 ++ a :: l2
              ∧ sc = rolloutScore b bot_identity state a
              ∧ bs < sc ∧ (∀ x ∈ l1, rolloutScore b bot_identity state x < sc))
          ∧ bs ≤ sc
          ∧ (∀ x ∈ a0 :: rest, rolloutScore b bot_identity state x ≤ sc) := by
      intro best' hupd h'
      by_cases hgt : rolloutScore b bot_identity state a0 > bs
      · have hb : best' = some (rolloutScore b bot_identity state a0, a0) := by
          rw [← hupd]
          show (if Modified.get_subbox_score b (b.next_state state a0) a0 bot_identity > bs
            then some (Modified.get_subbox_score b (b.next_state state a0) a0 bot_identity, a0)
            else some (bs, ba)) = _
          have hgt2 : Modified.get_subbox_score b (b.next_state state a0) a0 bot_identity > bs := hgt
          rw [if_pos hgt2]
          rfl
        rw [hb] at h'
        rcases ih (rolloutScore b bot_identity state a0) a0 sc a h' with ⟨hcase, hle, hall⟩
        refine ⟨?_, ?_, ?_⟩
        · rcases hcase with ⟨hsc, ha⟩ | ⟨l1, l2, he, hsc, hlt, hl1⟩
          · subst ha
            refine Or.inr ⟨[], rest, rfl, hsc, by omega, by simp⟩
          · refine Or.inr ⟨a0 :: l1, l2, by rw [he]; rfl, hsc, by omega, ?_⟩
            intro x hx
            rcases List.mem_cons.1 hx with hx0 | hx1
            · subst hx0; omega
            · exact hl1 x hx1
        · omega
        · intro x hx
          rcases List.mem_cons.1 hx with hx0 | hx1
          · subst hx0; omega
          · exact hall x hx1
      · have hb : best' = some (bs, ba) := by
          rw [← hupd]
          show (if Modified.get_subbox_score b (b.next_state state a0) a0 bot_identity > bs
            then some (Modified.get_subbox_score b (b.next_state state a0) a0 bot_identity, a0)
            else some (bs, ba)) = _
          have hgt2 : ¬ Modified.get_subbox_score b (b.next_state state a0) a0 bot_identity > bs := hgt
          rw [if_neg hgt2]
        rw [hb] at h'
        rcases ih bs ba sc a h' with ⟨hcase, hle, hall⟩
        refine ⟨?_, hle, ?_⟩
        · rcases hcase with hl | ⟨l1, l2, he, hsc, hlt, hl1⟩
          · exact Or.inl hl
          · refine Or.inr ⟨a0 :: l1, l2, by rw [he]; rfl, hsc, hlt, ?_⟩
            intro x hx
            rcases List.mem_cons.1 hx with hx0 | hx1
            · subst hx0; omega
            · exact hl1 x hx1
        · intro x hx
          rcases List.mem_cons.1 hx with hx0 | hx1
          · subst hx0; omega
          · exact hall x hx1
    by_cases hend : b.is_ended (b.next_state state a0) = true
    · cases hwin : is_winB b (b.next_state state a0) bot_identity with
      | none => simp [Modified.scanActions, hend, hwin] at h
      | some w =>
        cases w with
        | true => simp [Modified.scanActions, hend, hwin] at h
        | false =>
          exact step _ rfl (by simpa [Modified.scanActions, hend, hwin] using h)
    · exact step _ rfl (by simpa [Modified.scanActions, hend] using h)

theorem scanActions_char {σ} (b : Board σ A4) (bot_identity : Int) (state : σ)
    (acts : List A4) (sc : Int) (a : A4)
    (h : Modified.scanActions b bot_identity state acts none =
      some (Sum.inr (some (sc, a)))) :
    ∃ l1 l2, acts = l1 ++ a :: l2 ∧ sc = rolloutScore b bot_identity state a
      ∧ (∀ x ∈ l1, rolloutScore b bot_identity state x < sc)
      ∧ (∀ x ∈ l2, rolloutScore b bot_identity state x ≤ sc) := by
  cases acts with
  | nil => simp [Modified.scanActions] at h
  | cons a0 rest =>
    have key :
        Modified.scanActions b bot_identity state rest
          (some (Modified.get_subbox_score b (b.next_state state a0) a0 bot_identity, a0)) =
          some (Sum.inr (some (sc, a))) → _ := fun h' =>
      scanActions_inr_best b bot_identity state rest
        (rolloutScore b bot_identity state a0) a0 sc a h'
    by_cases hend : b.is_ended (b.next_state state a0) = true
    · cases hwin : is_winB b (b.next_state state a0) bot_identity with
      | none => simp [Modified.scanActions, hend, hwin] at h
      | some w =>
        cases w with
        | true => simp [Modified.scanActions, hend, hwin] at h
        | false =>
          have h' : Modified.scanActions b bot_identity state rest
              (some (Modified.get_subbox_score b (b.next_state state a0) a0 bot_identity, a0)) =
              some (Sum.inr (some (sc, a))) := by
            simpa [Modified.scanActions, hend, hwin, Modified.scanUpd] using h
          rcases key h' with ⟨hcase, _, hall⟩
          rcases hcase with ⟨hsc, ha⟩ | ⟨l1, l2, he, hsc, hlt, hl1⟩
          · subst ha
            exact ⟨[], rest, rfl, hsc, by simp, fun x hx => hall x hx⟩
          · refine ⟨a0 :: l1, l2, by rw [he]; rfl, hsc, ?_, ?_⟩
            · intro x hx
              rcases List.mem_cons.1 hx with hx0 | hx1
              · subst hx0; exact hlt
              · exact hl1 x hx1
            · intro x hx
              exact hall x (by rw [he]; exact List.mem_append_right l1 (List.mem_cons_of_mem a hx))
    · have h' : Modified.scanActions b bot_identity state rest
          (some (Modified.get_subbox_score b (b.next_state state a0) a0 bot_identity, a0)) =
          some (Sum.inr (some (sc, a))) := by
        simpa [Modified.scanActions, hend, Modified.scanUpd] using h
      rcases key h' with ⟨hcase, _, hall⟩
      rcases hcase with ⟨hsc, ha⟩ | ⟨l1, l2, he, hsc, hlt, hl1⟩
      · subst ha
        exact ⟨[], rest, rfl, hsc, by simp, fun x hx => hall x hx⟩
      · refine ⟨a0 :: l1, l2, by rw [he]; rfl, hsc, ?_, ?_⟩
        · intro x hx
          rcases List.mem_cons.1 hx with hx0 | hx1
          · subst hx0; exact hlt
          · exact hl1 x hx1
        · intro x hx
          exact hall x (by rw [he]; exact List.mem_append_right l1 (List.mem_cons_of_mem a hx))

/-- C7 (amended): the heuristic-greedy rollout of `mcts_modified.py`
actually behaves as follows on a non-terminal state.  (i) If `(1,1,1,1)` is
legal it is played unconditionally (no heuristic is computed).  (ii) On the
*opponent's* turns a uniformly random (`choice`-oracle) action is played —
legal actions are *not* scored.  (iii) Only on the bot's own turns does the
greedy scan run, and it evaluates each action's resulting state with
`get_subbox_score` from the *bot's* perspective: it short-circuits on the
first action whose resulting state is terminal and a win for the bot
(earlier actions being non-winning), and otherwise the surviving best
action is the first-seen maximiser of the heuristic. -/
theorem C7_amended :
    (∀ {σ : Type} (b : Board σ A4) (pickR : List A4 → Option A4)
        (bot_identity : Int) (fuel : Nat) (state : σ) (is_player_turn : Bool),
      b.is_ended state = false →
      (((1, 1, 1, 1) ∈ b.legal_actions state →
        Modified.rolloutLoop b pickR bot_identity (fuel + 1) state is_player_turn =
          Modified.rolloutLoop b pickR bot_identity fuel
            (b.next_state state (1, 1, 1, 1)) (!is_player_turn))
      ∧ ((1, 1, 1, 1) ∉ b.legal_actions state → is_player_turn = false →
        Modified.rolloutLoop b pickR bot_identity (fuel + 1) state false =
          (pickR (b.legal_actions state)).bind fun a =>
            Modified.rolloutLoop b pickR bot_identity fuel (b.next_state state a) true)))
    ∧ (∀ {σ : Type} (b : Board σ A4) (bot_identity : Int) (state : σ)
        (acts : List A4) (ts : σ),
        Modified.scanActions b bot_identity state acts none = some (Sum.inl ts) →
        ∃ l1 a l2, acts = l1 ++ a :: l2 ∧ IsWinningMove b bot_identity state a
          ∧ ts = b.next_state state a
          ∧ ∀ y ∈ l1, ¬ IsWinningMove b bot_identity state y)
    ∧ (∀ {σ : Type} (b : Board σ A4) (bot_identity : Int) (state : σ)
        (acts : List A4) (sc : Int) (a : A4),
        Modified.scanActions b bot_identity state acts none =
          some (Sum.inr (some (sc, a))) →
        ∃ l1 l2, acts = l1 ++ a :: l2 ∧ sc = rolloutScore b bot_identity state a
          ∧ (∀ x ∈ l1, rolloutScore b bot_identity state x < sc)
          ∧ (∀ x ∈ l2, rolloutScore b bot_identity state x ≤ sc)) := by
  refine ⟨?_, ?_, ?_⟩
  · intro σ b pickR bot_identity fuel state is_player_turn hne
    constructor
    · intro hmem
      simp only [Modified.rolloutLoop]
      rw [if_pos hne, if_pos hmem]
    · intro hnm _
      have e1 : Modified.rolloutLoop b pickR bot_identity (fuel + 1) state false =
          match pickR (b.legal_actions state) with
          | none => none
          | some a =>
            Modified.rolloutLoop b pickR bot_identity fuel (b.next_state state a) true := by
        simp only [Modified.rolloutLoop]
        rw [if_pos hne, if_neg hnm]
        simp
      rw [e1]
      cases hp : pickR (b.legal_actions state) with
      | none => rfl
      | some a => rfl
  · intro σ b bot_identity state acts ts h
    exact scanActions_inl b bot_identity state acts none ts h
  · intro σ b bot_identity state acts sc a h
    exact scanActions_char b bot_identity state acts sc a h

/-- Rules engine with `(1,1,1,1)` legal at state 0, for the C7 witness. -/
def BC7w : Board Nat A4 where
  current_player _ := 2
  legal_actions s := if s = 0 then [(1, 1, 1, 1)] else []
  next_state _ _ := 1
  is_ended s := s != 0
  points_values s := if s = 0 then none else some fun _ => 0
  unpack_pieces _ := []
  owned_boxes _ _ := 0

/-- Witness for C7 (amended), exercising all three conjuncts on the
concrete rules engines `BC7w` and `BC7`. -/
theorem C7_amended_witness :
    (Modified.rolloutLoop BC7w pickFirst 1 2 0 false =
      Modified.rolloutLoop BC7w pickFirst 1 1 (BC7w.next_state 0 (1, 1, 1, 1)) (!false))
    ∧ (Modified.rolloutLoop BC7 pickLast 1 2 0 false =
      (pickLast (BC7.legal_actions 0)).bind fun a =>
        Modified.rolloutLoop BC7 pickLast 1 1 (BC7.next_state 0 a) true)
    ∧ (∃ l1 a l2, ([(0, 0, 0, 0)] : List A4) = l1 ++ a :: l2
        ∧ IsWinningMove BC7 2 0 a ∧ (1 : Nat) = BC7.next_state 0 a
        ∧ ∀ y ∈ l1, ¬ IsWinningMove BC7 2 0 y)
    ∧ (∃ l1 l2, ([(0, 0, 0, 0), (0, 1, 0, 0)] : List A4) = l1 ++ (0, 0, 0, 0) :: l2
        ∧ (3 : Int) = rolloutScore BC7 1 0 (0, 0, 0, 0)
        ∧ (∀ x ∈ l1, rolloutScore BC7 1 0 x < 3)
        ∧ (∀ x ∈ l2, rolloutScore BC7 1 0 x ≤ 3)) :=
  ⟨(C7_amended.1 BC7w pickFirst 1 1 0 false rfl).1 (by decide),
   (C7_amended.1 BC7 pickLast 1 1 0 false rfl).2 (by decide) rfl,
   C7_amended.2.1 BC7 2 0 [(0, 0, 0, 0)] 1 (by decide),
   C7_amended.2.2 BC7 1 0 [(0, 0, 0, 0), (0, 1, 0, 0)] 3 (0, 0, 0, 0) (by decide)⟩

/-! ## Backpropagation lemmas (claim C9) -/

theorem length_bump {α} (won : Bool) (t : MCTree α) (i : Nat) :
    (bump won t i).length = t.length := List.length_set ..

theorem getN_bump_ne {α} (won : Bool) (t : MCTree α) (i k : Nat) (h : i ≠ k) :
    getN (bump won t i) k = getN t k := getN_set_ne _ _ _ _ h

theorem getN_bump_self {α} (won : Bool) (t : MCTree α) (i : Nat)
    (h : i < t.length) :
    getN (bump won t i) i = { getN t i with
      visits := (getN t i).visits + 1
      wins := (getN t i).wins + (if won then 1 else 0) } :=
  getN_set_self _ _ _ h

theorem getN_bump_parent {α} (won : Bool) (t : MCTree α) (i k : Nat) :
    (getN (bump won t i) k).parent = (getN t k).parent := by
  by_cases hik : i = k
  · subst hik
    by_cases hl : i < t.length
    · rw [getN_bump_self _ _ _ hl]
    · unfold bump
      rw [List.set_eq_of_length_le (Nat.le_of_not_lt hl)]
  · rw [getN_bump_ne _ _ _ _ hik]

theorem length_backpropFrom {α} (won : Bool) :
    ∀ (i : Nat) (t : MCTree α), (backpropFrom won t i).length = t.length := by
  intro i
  induction i using Nat.strong_induction_on with
  | _ i ih =>
    intro t
    rw [backpropFrom]
    cases hp : (getN (bump won t i) i).parent with
    | none => exact length_bump won t i
    | some p =>
      by_cases h : p < i
      · simp only [dif_pos h]
        rw [ih p h (bump won t i), length_bump]
      · simp only [dif_neg h]
        exact length_bump won t i

theorem getN_backpropFrom_untouched {α} (won : Bool) :
    ∀ (i : Nat) (t : MCTree α) (k : Nat), i < k →
      getN (backpropFrom won t i) k = getN t k := by
  intro i
  induction i using Nat.strong_induction_on with
  | _ i ih =>
    intro t k hik
    rw [backpropFrom]
    cases hp : (getN (bump won t i) i).parent with
    | none => exact getN_bump_ne won t i k (Nat.ne_of_lt hik)
    | some p =>
      by_cases h : p < i
      · simp only [dif_pos h]
        rw [ih p h (bump won t i) k (Nat.lt_trans h hik)]
        exact getN_bump_ne won t i k (Nat.ne_of_lt hik)
      · simp only [dif_neg h]
        exact getN_bump_ne won t i k (Nat.ne_of_lt hik)

theorem getN_backpropFrom_parent {α} (won : Bool) :
    ∀ (i : Nat) (t : MCTree α) (k : Nat),
      (getN (backpropFrom won t i) k).parent = (getN t k).parent := by
  intro i
  induction i using Nat.strong_induction_on with
  | _ i ih =>
    intro t k
    rw [backpropFrom]
    cases hp : (getN (bump won t i) i).parent with
    | none => exact getN_bump_parent won t i k
    | some p =>
      by_cases h : p < i
      · simp only [dif_pos h]
        rw [ih p h (bump won t i) k]
        exact getN_bump_parent won t i k
      · simp only [dif_neg h]
        exact getN_bump_parent won t i k

theorem chain_congr {α} (t t2 : MCTree α)
    (hpar : ∀ k, (getN t2 k).parent = (getN t k).parent) :
    ∀ i, chain t2 i = chain t i := by
  intro i
  induction i using Nat.strong_induction_on with
  | _ i ih =>
    rw [chain, chain, hpar i]
    cases hp : (getN t i).parent with
    | none => rfl
    | some p =>
      by_cases h : p < i
      · simp only [dif_pos h, ih p h]
      · simp only [dif_neg h]

theorem chain_le {α} (t : MCTree α) :
    ∀ i, ∀ j ∈ chain t i, j ≤ i := by
  intro i
  induction i using Nat.strong_induction_on with
  | _ i ih =>
    intro j hj
    rw [chain] at hj
    rcases List.mem_cons.1 hj with hj0 | hj1
    · omega
    · cases hp : (getN t i).parent with
      | none => simp only [hp] at hj1; simp at hj1
      | some p =>
        simp only [hp] at hj1
        by_cases h : p < i
        · rw [dif_pos h] at hj1
          exact Nat.le_of_lt (Nat.lt_of_le_of_lt (ih p h j hj1) h)
        · rw [dif_neg h] at hj1; simp at hj1

theorem chain_mem_cases {α} (t : MCTree α) (i j : Nat) (hj : j ∈ chain t i) :
    j = i ∨ ∃ p, (getN t i).parent = some p ∧ p < i ∧ j ∈ chain t p := by
  rw [chain] at hj
  rcases List.mem_cons.1 hj with hj0 | hj1
  · exact Or.inl hj0
  · cases hp : (getN t i).parent with
    | none => simp only [hp] at hj1; simp at hj1
    | some p =>
      simp only [hp] at hj1
      by_cases h : p < i
      · rw [dif_pos h] at hj1
        exact Or.inr ⟨p, rfl, h, hj1⟩
      · rw [dif_neg h] at hj1; simp at hj1

theorem chain_head {α} (t : MCTree α) (i : Nat) : i ∈ chain t i := by
  rw [chain]; exact List.mem_cons_self i _

theorem chain_cons {α} (t : MCTree α) (i p : Nat)
    (hp : (getN t i).parent = some p) (h : p < i) :
    chain t i = i :: chain t p := by
  rw [chain]
  simp only [hp, dif_pos h]

theorem backpropFrom_result_self {α} (won : Bool) (t : MCTree α) (i : Nat)
    (hlen : i < t.length) :
    getN (backpropFrom won t i) i = { getN t i with
      visits := (getN t i).visits + 1
      wins := (getN t i).wins + (if won then 1 else 0) } := by
  rw [backpropFrom]
  cases hp : (getN (bump won t i) i).parent with
  | none => exact getN_bump_self _ _ _ hlen
  | some p =>
    by_cases h : p < i
    · simp only [dif_pos h]
      rw [getN_backpropFrom_untouched won p (bump won t i) i h]
      exact getN_bump_self _ _ _ hlen
    · simp only [dif_neg h]
      exact getN_bump_self _ _ _ hlen

theorem backpropFrom_inc {α} (won : Bool) :
    ∀ (i : Nat) (t : MCTree α), i < t.length →
      ∀ j ∈ chain t i,
        (getN (backpropFrom won t i) j).visits = (getN t j).visits + 1
        ∧ (getN (backpropFrom won t i) j).wins
            = (getN t j).wins + (if won then 1 else 0) := by
  intro i
  induction i using Nat.strong_induction_on with
  | _ i ih =>
    intro t hlen j hj
    rcases chain_mem_cases t i j hj with hj0 | ⟨p, hp, hpi, hjp⟩
    · subst hj0
      rw [backpropFrom_result_self won t j hlen]
      exact ⟨rfl, rfl⟩
    · have hji : j ≠ i := by
        have := chain_le t p j hjp
        omega
      rw [backpropFrom]
      have hpar : (getN (bump won t i) i).parent = some p := by
        rw [getN_bump_parent, hp]
      simp only [hpar, dif_pos hpi]
      have hmem : j ∈ chain (bump won t i) p := by
        rw [chain_congr t (bump won t i) (fun k => getN_bump_parent won t i k) p]
        exact hjp
      have := ih p hpi (bump won t i) (by rw [length_bump]; omega) j hmem
      rw [this.1, this.2, getN_bump_ne won t i j (Ne.symm hji)]
      exact ⟨rfl, rfl⟩

theorem backpropFrom_offchain {α} (won : Bool) :
    ∀ (i : Nat) (t : MCTree α) (k : Nat), k ∉ chain t i →
      getN (backpropFrom won t i) k = getN t k := by
  intro i
  induction i using Nat.strong_induction_on with
  | _ i ih =>
    intro t k hk
    have hki : i ≠ k := fun h => hk (h ▸ chain_head t i)
    rw [backpropFrom]
    cases hp : (getN (bump won t i) i).parent with
    | none => exact getN_bump_ne won t i k hki
    | some p =>
      have hpt : (getN t i).parent = some p := by
        rw [← getN_bump_parent won t i i]; exact hp
      by_cases h : p < i
      · simp only [dif_pos h]
        have hk2 : k ∉ chain t p := by
          intro hmem
          exact hk (by rw [chain_cons t i p hpt h]; exact List.mem_cons_of_mem i hmem)
        have hk3 : k ∉ chain (bump won t i) p := by
          rw [chain_congr t (bump won t i) (fun m => getN_bump_parent won t i m) p]
          exact hk2
        rw [ih p h (bump won t i) k hk3]
        exact getN_bump_ne won t i k hki
      · simp only [dif_neg h]
        exact getN_bump_ne won t i k hki

theorem WFb_parent {α} (t : MCTree α) (hw : WFb t = true) (i : Nat)
    (hi : i < t.length) :
    ((getN t i).parent = none → i = 0)
    ∧ (∀ p, (getN t i).parent = some p → p < i) := by
  unfold WFb at hw
  rw [List.all_eq_true] at hw
  have h := hw i (List.mem_range.2 hi)
  constructor
  · intro hp
    simp only [hp] at h
    simpa using h
  · intro p hp
    simp only [hp] at h
    simp at h
    exact h.2

theorem WFb_chain_root {α} (t : MCTree α) (hw : WFb t = true) :
    ∀ i, i < t.length → 0 ∈ chain t i := by
  intro i
  induction i using Nat.strong_induction_on with
  | _ i ih =>
    intro hi
    rcases Nat.eq_zero_or_pos i with h0 | h0
    · subst h0; exact chain_head t 0
    · cases hp : (getN t i).parent with
      | none =>
        have := (WFb_parent t hw i hi).1 hp
        omega
      | some p =>
        have hpi := (WFb_parent t hw i hi).2 p hp
        rw [chain_cons t i p hp hpi]
        exact List.mem_cons_of_mem i (ih p hpi (by omega))

/-! ## Claim C9 -/

/-- C9: `backpropagate` walks the parent chain from the given node up to
and including the root (conjunct 3, for a well-formed arena), incrementing
`visits` by exactly 1 and `wins` by exactly 1 iff the outcome is a win at
every node of the chain (conjunct 1); every node off the chain is unchanged
(conjunct 2).  Consequently calling it twice on the same leaf adds 2 to
`visits` and `2·(outcome)` to `wins` along the chain (conjunct 4) and still
leaves all other nodes unchanged (conjunct 5). -/
theorem C9_backpropagate_chain {α : Type} (won : Bool) (t : MCTree α)
    (i : Nat) (hlen : i < t.length) :
    (∀ j ∈ chain t i,
      (getN (backpropagate won t (some i)) j).visits = (getN t j).visits + 1
      ∧ (getN (backpropagate won t (some i)) j).wins
          = (getN t j).wins + (if won then 1 else 0))
    ∧ (∀ j, j ∉ chain t i → getN (backpropagate won t (some i)) j = getN t j)
    ∧ (WFb t = true → 0 ∈ chain t i)
    ∧ (∀ j ∈ chain t i,
      (getN (backpropagate won (backpropagate won t (some i)) (some i)) j).visits
          = (getN t j).visits + 2
      ∧ (getN (backpropagate won (backpropagate won t (some i)) (some i)) j).wins
          = (getN t j).wins + (if won then 2 else 0))
    ∧ (∀ j, j ∉ chain t i →
      getN (backpropagate won (backpropagate won t (some i)) (some i)) j
        = getN t j) := by
  have hbp : backpropagate won t (some i) = backpropFrom won t i := rfl
  have hchain : chain (backpropFrom won t i) i = chain t i :=
    chain_congr t (backpropFrom won t i)
      (fun k => getN_backpropFrom_parent won i t k) i
  have hlen2 : i < (backpropFrom won t i).length := by
    rw [length_backpropFrom]; exact hlen
  refine ⟨fun j hj => backpropFrom_inc won i t hlen j hj,
          fun j hj => backpropFrom_offchain won i t j hj,
          fun hw => WFb_chain_root t hw i hlen, ?_, ?_⟩
  · intro j hj
    simp only [backpropagate]
    have h1 := backpropFrom_inc won i t hlen j hj
    have h2 := backpropFrom_inc won i (backpropFrom won t i) hlen2 j
      (by rw [hchain]; exact hj)
    refine ⟨?_, ?_⟩
    · rw [h2.1, h1.1]
    · rw [h2.2, h1.2]
      cases won <;> simp
  · intro j hj
    simp only [backpropagate]
    have h1 := backpropFrom_offchain won i t j hj
    have h2 := backpropFrom_offchain won i (backpropFrom won t i) j
      (by rw [hchain]; exact hj)
    rw [h2, h1]

/-- Witness for C9 on the concrete two-node arena `tC9` (leaf index 1,
chain `[1, 0]`, outcome `false`): both chain nodes gain one visit and no
win, index 2 (off the chain) is untouched, the root is on the chain, and
the double application adds two visits. -/
theorem C9_backpropagate_chain_witness :
    ((getN (backpropagate false tC9 (some 1)) 1).visits
        = (getN tC9 1).visits + 1
      ∧ (getN (backpropagate false tC9 (some 1)) 1).wins
        = (getN tC9 1).wins + (if false then 1 else 0))
    ∧ ((getN (backpropagate false tC9 (some 1)) 0).visits
        = (getN tC9 0).visits + 1)
    ∧ (getN (backpropagate false tC9 (some 1)) 2 = getN tC9 2)
    ∧ (0 ∈ chain tC9 1)
    ∧ ((getN (backpropagate false (backpropagate false tC9 (some 1)) (some 1)) 0).visits
        = (getN tC9 0).visits + 2) := by
  have hc0 : chain tC9 0 = [0] := by rw [chain]; rfl
  have hc1 : chain tC9 1 = [1, 0] := by
    rw [chain_cons tC9 1 0 rfl (by omega), hc0]
  have h := C9_backpropagate_chain false tC9 1 (by decide)
  refine ⟨h.1 1 (by rw [hc1]; decide), (h.1 0 (by rw [hc1]; decide)).1,
          h.2.1 2 (by rw [hc1]; decide), h.2.2.1 (by decide),
          (h.2.2.2.1 0 (by rw [hc1]; decide)).1⟩

/-! ## Claim C8 -/

theorem ucb_tC8_child1 : ucb tC8 1 false = 0 := by
  simp [ucb, getN, tC8, explore_faction]

theorem ucb_tC8_child2 : ucb tC8 2 false = 0 := by
  simp [ucb, getN, tC8, explore_faction]

/-- C8 (counterexample): in `tC8` the two children of the root have *equal*
UCB scores, yet `traverse_nodes` of `mcts_vanilla.py` descends into the
*second* child (index 2, action `11`): its comparison is `score >=
best_score`, so a later child with an equal score displaces an earlier one
— refuting the first-seen tie-break. -/
theorem C8_counterexample :
    ucb tC8 1 false = ucb tC8 2 false
    ∧ Vanilla.traverse_nodes BN tC8 3 0 0 false = some (2, 111) := by
  constructor
  · rw [ucb_tC8_child1, ucb_tC8_child2]
  · have hs : Vanilla.selectChild tC8 false [(10, 1), (11, 2)] (0, 0, none) =
        (0, 2, some 11) := by
      simp [Vanilla.selectChild, ucb_tC8_child1, ucb_tC8_child2]
    have hc0 : (getN tC8 0).child_nodes = [(10, 1), (11, 2)] := rfl
    have hu0 : (getN tC8 0).untried_actions = [7] := rfl
    have hc2 : (getN tC8 2).child_nodes = [] := rfl
    simp [Vanilla.traverse_nodes, hc0, hu0, hc2, hs, BN]

theorem selectChild_best {α} (t : MCTree α) (is_opponent : Bool) :
    ∀ (l : List (α × Nat)) (bs : ℝ) (bn : Nat) (ba : α) (sc : ℝ) (j : Nat) (a : α),
      Modified.selectChild t is_opponent l (some (bs, bn, ba)) = some (sc, j, a) →
      ((sc = bs ∧ j = bn ∧ a = ba) ∨
        ∃ l1 l2, l = l1 ++ (a, j) :: l2 ∧ sc = ucb t j is_opponent
          ∧ bs < sc ∧ (∀ x ∈ l1, ucb t x.2 is_opponent < sc))
      ∧ bs ≤ sc ∧ (∀ x ∈ l, ucb t x.2 is_opponent ≤ sc) := by
  intro l
  induction l with
  | nil =>
    intro bs bn ba sc j a h
    have h' : bs = sc ∧ bn = j ∧ ba = a := by
      simpa [Modified.selectChild] using h
    exact ⟨Or.inl ⟨h'.1.symm, h'.2.1.symm, h'.2.2.symm⟩, le_of_eq h'.1, by simp⟩
  | cons x rest ih =>
    intro bs bn ba sc j a h
    obtain ⟨action, child⟩ := x
    by_cases hgt : ucb t child is_opponent > bs
    · have hstep : Modified.selectChild t is_opponent rest
          (some (ucb t child is_opponent, child, action)) = some (sc, j, a) := by
        have e : Modified.updAcc (ucb t child is_opponent) child action
            (some (bs, bn, ba)) = some (ucb t child is_opponent, child, action) := by
          show (if ucb t child is_opponent > bs then _ else _) = _
          rw [if_pos hgt]
        rw [Modified.selectChild, e] at h
        exact h
      rcases ih (ucb t child is_opponent) child action sc j a hstep with ⟨hcase, hle, hall⟩
      refine ⟨?_, le_of_lt (lt_of_lt_of_le hgt hle), ?_⟩
      · rcases hcase with ⟨hsc, hj, ha⟩ | ⟨l1, l2, he, hsc, hlt, hl1⟩
        · subst hj; subst ha
          exact Or.inr ⟨[], rest, rfl, hsc, by rw [hsc]; exact hgt, by simp⟩
        · refine Or.inr ⟨(action, child) :: l1, l2, by rw [he]; rfl, hsc,
            lt_trans hgt hlt, ?_⟩
          intro y hy
          rcases List.mem_cons.1 hy with hy0 | hy1
          · subst hy0; exact hlt
          · exact hl1 y hy1
      · intro y hy
        rcases List.mem_cons.1 hy with hy0 | hy1
        · subst hy0; exact hle
        · exact hall y hy1
    · have hstep : Modified.selectChild t is_opponent rest
          (some (bs, bn, ba)) = some (sc, j, a) := by
        have e : Modified.updAcc (ucb t child is_opponent) child action
            (some (bs, bn, ba)) = some (bs, bn, ba) := by
          show (if ucb t child is_opponent > bs then _ else _) = _
          rw [if_neg hgt]
        rw [Modified.selectChild, e] at h
        exact h
      rcases ih bs bn ba sc j a hstep with ⟨hcase, hle, hall⟩
      refine ⟨?_, hle, ?_⟩
      · rcases hcase with hl | ⟨l1, l2, he, hsc, hlt, hl1⟩
        · exact Or.inl hl
        · refine Or.inr ⟨(action, child) :: l1, l2, by rw [he]; rfl, hsc, hlt, ?_⟩
          intro y hy
          rcases List.mem_cons.1 hy with hy0 | hy1
          · subst hy0
            exact lt_of_le_of_lt (le_of_not_lt hgt) hlt
          · exact hl1 y hy1
      · intro y hy
        rcases List.mem_cons.1 hy with hy0 | hy1
        · subst hy0; exact le_trans (le_of_not_lt hgt) hle
        · exact hall y hy1

/-- C8 (amended): in `mcts_modified.py` the UCB descent selects the child
with strictly greatest score and breaks ties in favour of the first-seen
child (every child listed *before* the selected one scores strictly less;
every child after it scores no more).  In `mcts_vanilla.py` the comparison
is `score >= best_score` (with initial best 0), so among equally scored
children the *last* is selected — see the counterexample. -/
theorem C8_amended {α : Type} (t : MCTree α) (is_opponent : Bool)
    (l : List (α × Nat)) (sc : ℝ) (j : Nat) (a : α)
    (h : Modified.selectChild t is_opponent l none = some (sc, j, a)) :
    ∃ l1 l2, l = l1 ++ (a, j) :: l2 ∧ sc = ucb t j is_opponent
      ∧ (∀ x ∈ l1, ucb t x.2 is_opponent < sc)
      ∧ (∀ x ∈ l2, ucb t x.2 is_opponent ≤ sc) := by
  cases l with
  | nil => simp [Modified.selectChild] at h
  | cons x rest =>
    obtain ⟨action, child⟩ := x
    have hstep : Modified.selectChild t is_opponent rest
        (some (ucb t child is_opponent, child, action)) = some (sc, j, a) := by
      rw [Modified.selectChild] at h
      exact h
    rcases selectChild_best t is_opponent rest (ucb t child is_opponent)
      child action sc j a hstep with ⟨hcase, hle, hall⟩
    rcases hcase with ⟨hsc, hj, ha⟩ | ⟨l1, l2, he, hsc, hlt, hl1⟩
    · subst hj; subst ha
      exact ⟨[], rest, rfl, hsc, by simp, fun x hx => hall x hx⟩
    · refine ⟨(action, child) :: l1, l2, by rw [he]; rfl, hsc, ?_, ?_⟩
      · intro x hx
        rcases List.mem_cons.1 hx with hx0 | hx1
        · subst hx0; exact hlt
        · exact hl1 x hx1
      · intro x hx
        have hxr : x ∈ rest := by
          rw [he]
          exact List.mem_append_right l1 (List.mem_cons_of_mem _ hx)
        exact hall x hxr

/-- Witness for C8 (amended) on the concrete arena `tC9` with its single
root child. -/
theorem C8_amended_witness :
    ∃ l1 l2, ([(3, 1)] : List (Nat × Nat)) = l1 ++ ((3 : Nat), (1 : Nat)) :: l2
      ∧ ucb tC9 1 false = ucb tC9 1 false
      ∧ (∀ x ∈ l1, ucb tC9 x.2 false < ucb tC9 1 false)
      ∧ (∀ x ∈ l2, ucb tC9 x.2 false ≤ ucb tC9 1 false) :=
  C8_amended tC9 false [(3, 1)] (ucb tC9 1 false) 1 3 rfl

/-! ## Claim C1 -/

theorem ucb_tC1_child : ucb tC1 1 false = 0 := by
  simp [ucb, getN, tC1, explore_faction]

/-- C1 (code bug in `mcts_vanilla.py`): the root of `tC1` has a pending
untried action (`7`) *and* an existing child.  `traverse_nodes` of
`mcts_vanilla.py` — contradicting its own docstring and the claim — does
*not* return this node: its test is inverted (it returns a node whose
`untried_actions` is empty and runs the UCB comparison otherwise), so it
scores the child with `ucb` and descends into it, returning the child
(index 1).  `traverse_nodes` of `mcts_modified.py` on the same arena
returns the root immediately, as the claim states. -/
theorem C1_selection_policy :
    Vanilla.traverse_nodes BN tC1 3 0 0 false = some (1, 100)
    ∧ Modified.traverse_nodes BN tC1 3 0 0 1 = some (0, 0) := by
  constructor
  · have hs : Vanilla.selectChild tC1 false [(0, 1)] (0, 0, none) =
        (0, 1, some 0) := by
      simp [Vanilla.selectChild, ucb_tC1_child]
    have hc0 : (getN tC1 0).child_nodes = [(0, 1)] := rfl
    have hu0 : (getN tC1 0).untried_actions = [7] := rfl
    have hc1 : (getN tC1 1).child_nodes = [] := rfl
    simp [Vanilla.traverse_nodes, hc0, hu0, hc1, hs, BN]
  · have hc0 : (getN tC1 0).child_nodes = [(0, 1)] := rfl
    have hu0 : (getN tC1 0).untried_actions = [7] := rfl
    simp [Modified.traverse_nodes, Modified.traverseLoop, hc0, hu0]

/-! ## Claim C3 -/

theorem sqrt_four : Real.sqrt 4 = 2 := by
  rw [show (4 : ℝ) = 2 ^ 2 by norm_num, Real.sqrt_sq (by norm_num : (0:ℝ) ≤ 2)]

theorem ucb_tC3_A : ucb tC3 1 false = 1 + Real.sqrt (Real.log 5) := by
  simp [ucb, getN, tC3, explore_faction]
  rw [sqrt_four]
  ring

theorem ucb_tC3_B : ucb tC3 2 false = 2 * Real.sqrt (Real.log 5) := by
  simp [ucb, getN, tC3, explore_faction]

theorem ucb_tC3_lt : ucb tC3 1 false < ucb tC3 2 false := by
  rw [ucb_tC3_A, ucb_tC3_B]
  have hlog : 1 < Real.log 5 := by
    rw [Real.lt_log_iff_exp_lt (by norm_num : (0:ℝ) < 5)]
    calc Real.exp 1 < 2.7182818286 := Real.exp_one_lt_d9
      _ < 5 := by norm_num
  have hsq : 1 < Real.sqrt (Real.log 5) :=
    (Real.lt_sqrt (by norm_num)).2 (by rw [one_pow]; exact hlog)
  linarith

/-- C3 (counterexample): on the arena `tC3` — child A (action `10`) with 4
visits / 4 wins (win rate 1), child B (action `11`) with 1 visit / 0 wins
(win rate 0) under a root with 5 visits — `get_best_action` of
`mcts_vanilla.py` returns action `11`, the child with the *strictly lower*
win rate (third conjunct, cross-multiplied), because it maximises
`ucb(child, False)` whose exploration term `2·√(ln 5 / visits)` overwhelms
the win rates.  `get_best_action` of `mcts_modified.py` on the same arena
returns `10`, the win-rate maximiser.  This refutes the claim that the
final action is always the root child of maximal `wins/visits`. -/
theorem C3_counterexample :
    Vanilla.get_best_action tC3 0 = some 11
    ∧ Modified.get_best_action tC3 0 = some 10
    ∧ (getN tC3 2).wins * (getN tC3 1).visits
        < (getN tC3 1).wins * (getN tC3 2).visits := by
  refine ⟨?_, ?_, by decide⟩
  · have hgt : ucb tC3 2 false > ucb tC3 1 false := ucb_tC3_lt
    have hc : (getN tC3 0).child_nodes = [(10, 1), (11, 2)] := rfl
    simp [Vanilla.get_best_action, Vanilla.bestLoop, hc, hgt]
  · have h14 : ((getN tC3 1).wins : ℝ) / ((getN tC3 1).visits : ℝ) = 1 := by
      norm_num [getN, tC3]
    have h20 : ((getN tC3 2).wins : ℝ) / ((getN tC3 2).visits : ℝ) = 0 := by
      norm_num [getN, tC3]
    have hc : (getN tC3 0).child_nodes = [(10, 1), (11, 2)] := rfl
    norm_num [Modified.get_best_action, Modified.bestLoop, Modified.updPair,
      hc, h14, h20]

/-- Shorthand for the score `node.wins / node.visits` computed by
`get_best_action` in `mcts_modified.py`. -/
noncomputable def winRate {α} (t : MCTree α) (j : Nat) : ℝ :=
  ((getN t j).wins : ℝ) / ((getN t j).visits : ℝ)

theorem bestLoop_best {α} (t : MCTree α) :
    ∀ (l : List (α × Nat)) (bs : ℝ) (ba : α) (sc : ℝ) (a : α),
      Modified.bestLoop t l (some (bs, ba)) = some (sc, a) →
      ((sc = bs ∧ a = ba) ∨
        ∃ (l1 l2 : List (α × Nat)) (j : Nat), l = l1 ++ (a, j) :: l2
          ∧ sc = winRate t j
          ∧ bs < sc ∧ (∀ x ∈ l1, winRate t x.2 < sc))
      ∧ bs ≤ sc ∧ (∀ x ∈ l, winRate t x.2 ≤ sc) := by
  intro l
  induction l with
  | nil =>
    intro bs ba sc a h
    have h' : bs = sc ∧ ba = a := by
      simpa [Modified.bestLoop] using h
    exact ⟨Or.inl ⟨h'.1.symm, h'.2.symm⟩, le_of_eq h'.1, by simp⟩
  | cons x rest ih =>
    intro bs ba sc a h
    obtain ⟨action, node⟩ := x
    by_cases hgt : winRate t node > bs
    · have hstep : Modified.bestLoop t rest
          (some (winRate t node, action)) = some (sc, a) := by
        have e : Modified.updPair
            (((getN t node).wins : ℝ) / ((getN t node).visits : ℝ)) action
            (some (bs, ba)) = some (winRate t node, action) := by
          have hgt2 : ((getN t node).wins : ℝ) / ((getN t node).visits : ℝ) > bs := hgt
          show (if ((getN t node).wins : ℝ) / ((getN t node).visits : ℝ) > bs
            then _ else _) = _
          rw [if_pos hgt2]
          rfl
        rw [Modified.bestLoop, e] at h
        exact h
      rcases ih (winRate t node) action sc a hstep with ⟨hcase, hle, hall⟩
      refine ⟨?_, le_of_lt (lt_of_lt_of_le hgt hle), ?_⟩
      · rcases hcase with ⟨hsc, ha⟩ | ⟨l1, l2, j, he, hsc, hlt, hl1⟩
        · subst ha
          exact Or.inr ⟨[], rest, node, rfl, hsc, by rw [hsc]; exact hgt, by simp⟩
        · refine Or.inr ⟨(action, node) :: l1, l2, j, by rw [he]; rfl, hsc,
            lt_trans hgt hlt, ?_⟩
          intro y hy
          rcases List.mem_cons.1 hy with hy0 | hy1
          · subst hy0; exact hlt
          · exact hl1 y hy1
      · intro y hy
        rcases List.mem_cons.1 hy with hy0 | hy1
        · subst hy0; exact hle
        · exact hall y hy1
    · have hstep : Modified.bestLoop t rest (some (bs, ba)) = some (sc, a) := by
        have e : Modified.updPair
            (((getN t node).wins : ℝ) / ((getN t node).visits : ℝ)) action
            (some (bs, ba)) = some (bs, ba) := by
          have hgt2 : ¬ ((getN t node).wins : ℝ) / ((getN t node).visits : ℝ) > bs := hgt
          show (if ((getN t node).wins : ℝ) / ((getN t node).visits : ℝ) > bs
            then _ else _) = _
          rw [if_neg hgt2]
        rw [Modified.bestLoop, e] at h
        exact h
      rcases ih bs ba sc a hstep with ⟨hcase, hle, hall⟩
      refine ⟨?_, hle, ?_⟩
      · rcases hcase with hl | ⟨l1, l2, j, he, hsc, hlt, hl1⟩
        · exact Or.inl hl
        · refine Or.inr ⟨(action, node) :: l1, l2, j, by rw [he]; rfl, hsc, hlt, ?_⟩
          intro y hy
          rcases List.mem_cons.1 hy with hy0 | hy1
          · subst hy0; exact lt_of_le_of_lt (le_of_not_lt hgt) hlt
          · exact hl1 y hy1
      · intro y hy
        rcases List.mem_cons.1 hy with hy0 | hy1
        · subst hy0; exact le_trans (le_of_not_lt hgt) hle
        · exact hall y hy1

/-- C3 (amended): in `mcts_modified.py`, `get_best_action` returns the
root child with maximal win rate `wins/visits`, ties broken by first-seen
action order (every earlier child scores strictly less, every later child
no more) — in particular on the spec's decision scenario (A: 10 visits /
6 wins, B: 5 visits / 4 wins) it returns B.  In `mcts_vanilla.py`,
`get_best_action` instead maximises `ucb(child, False)` *including its
exploration bonus*, which can differ from the win-rate maximum (see the
counterexample). -/
theorem C3_amended :
    (∀ {α : Type} (t : MCTree α) (root_node : Nat) (a : α),
      Modified.get_best_action t root_node = some a →
      ∃ (l1 l2 : List (α × Nat)) (j : Nat),
        (getN t root_node).child_nodes = l1 ++ (a, j) :: l2
        ∧ (∀ x ∈ l1, winRate t x.2 < winRate t j)
        ∧ (∀ x ∈ l2, winRate t x.2 ≤ winRate t j))
    ∧ Modified.get_best_action tScen 0 = some 21 := by
  constructor
  · intro α t root_node a h
    unfold Modified.get_best_action at h
    cases hb : Modified.bestLoop t (getN t root_node).child_nodes none with
    | none => rw [hb] at h; simp at h
    | some p =>
      obtain ⟨sc, a'⟩ := p
      rw [hb] at h
      simp only [Option.some.injEq] at h
      subst h
      cases hc : (getN t root_node).child_nodes with
      | nil => rw [hc] at hb; simp [Modified.bestLoop] at hb
      | cons x rest =>
        obtain ⟨action, node⟩ := x
        rw [hc] at hb
        have hstep : Modified.bestLoop t rest
            (some (winRate t node, action)) = some (sc, a') := by
          rw [Modified.bestLoop] at hb
          exact hb
        rcases bestLoop_best t rest (winRate t node) action sc a' hstep with
          ⟨hcase, hle, hall⟩
        rcases hcase with ⟨hsc, ha⟩ | ⟨l1, l2, j, he, hsc, hlt, hl1⟩
        · subst ha
          refine ⟨[], rest, node, rfl, by simp, ?_⟩
          intro x hx
          rw [← hsc]
          exact hall x hx
        · refine ⟨(action, node) :: l1, l2, j, by rw [he]; rfl, ?_, ?_⟩
          · intro x hx
            rw [← hsc]
            rcases List.mem_cons.1 hx with hx0 | hx1
            · subst hx0; exact hlt
            · exact hl1 x hx1
          · intro x hx
            rw [← hsc]
            have hmem : x ∈ rest := by
              rw [he]
              exact List.mem_append_right l1 (List.mem_cons_of_mem _ hx)
            exact hall x hmem
  · have h1 : ((getN tScen 1).wins : ℝ) / ((getN tScen 1).visits : ℝ) = 3 / 5 := by
      norm_num [getN, tScen]
    have h2 : ((getN tScen 2).wins : ℝ) / ((getN tScen 2).visits : ℝ) = 4 / 5 := by
      norm_num [getN, tScen]
    have hc : (getN tScen 0).child_nodes = [(20, 1), (21, 2)] := rfl
    norm_num [Modified.get_best_action, Modified.bestLoop, Modified.updPair,
      hc, h1, h2]

/-- Witness for C3 (amended), applying the characterisation to the spec's
decision scenario `tScen` where action `21` (B) is returned. -/
theorem C3_amended_witness :
    ∃ (l1 l2 : List (Nat × Nat)) (j : Nat),
      (getN tScen 0).child_nodes = l1 ++ ((21 : Nat), j) :: l2
      ∧ (∀ x ∈ l1, winRate tScen x.2 < winRate tScen j)
      ∧ (∀ x ∈ l2, winRate tScen x.2 ≤ winRate tScen j) :=
  C3_amended.1 tScen 0 21 C3_amended.2

/-! ## Claim C5 -/

/-- The arena after `think`'s first iteration on `BC5`: root expanded with
action `0` to the terminal child (index 1), but before backpropagation. -/
def t5i : MCTree Nat :=
  [⟨none, none, [(0, 1)], [0, 1], 0, 0⟩, ⟨some 0, some 0, [], [], 0, 0⟩]

/-- The arena after `think`'s first full iteration on `BC5` (one visit on
the root and on the terminal child). -/
def t5a : MCTree Nat :=
  [⟨none, none, [(0, 1)], [0, 1], 1, 0⟩, ⟨some 0, some 0, [], [], 1, 0⟩]

theorem backprop_t5i : backpropFrom false t5i 1 = t5a := by
  rw [backpropFrom]
  simp only [show (getN (bump false t5i 1) 1).parent = some 0 from rfl]
  rw [dif_pos (by omega : (0 : Nat) < 1)]
  rw [backpropFrom]
  simp only [show (getN (bump false (bump false t5i 1) 0) 0).parent = none from rfl]
  decide

theorem thinkIter_BC5_first : Vanilla.thinkIter BC5 pickFirst pickFirst 1 0 1
    [Vanilla.rootNode BC5 0] = some (backpropFrom false t5i 1) := rfl

theorem ucb_t5a_child : ucb t5a 1 false = 0 := by
  simp [ucb, getN, t5a, explore_faction]

theorem traverse_t5a : Vanilla.traverse_nodes BC5 t5a 3 0 0 false = some (1, 1) := by
  have hs : Vanilla.selectChild t5a false [(0, 1)] (0, 0, none) = (0, 1, some 0) := by
    simp [Vanilla.selectChild, ucb_t5a_child]
  have hc0 : (getN t5a 0).child_nodes = [(0, 1)] := rfl
  have hu0 : (getN t5a 0).untried_actions = [0, 1] := rfl
  have hc1 : (getN t5a 1).child_nodes = [] := rfl
  simp [Vanilla.traverse_nodes, hc0, hu0, hc1, hs, BC5]

theorem thinkIter_BC5_second :
    Vanilla.thinkIter BC5 pickFirst pickFirst 1 0 1 t5a = some t5a := by
  unfold Vanilla.thinkIter
  rw [show (List.length t5a + 1) = 3 from rfl, traverse_t5a]
  rfl

theorem thinkLoop_BC5_two :
    Vanilla.thinkLoop BC5 pickFirst pickFirst 1 0 2 = some t5a := by
  have hcp : BC5.current_player 0 = 1 := rfl
  have l1 : Vanilla.thinkLoop BC5 pickFirst pickFirst 1 0 1 = some t5a := by
    show (Vanilla.thinkLoop BC5 pickFirst pickFirst 1 0 0).bind
      (Vanilla.thinkIter BC5 pickFirst pickFirst 1 0 (BC5.current_player 0))
      = some t5a
    rw [show Vanilla.thinkLoop BC5 pickFirst pickFirst 1 0 0
      = some [Vanilla.rootNode BC5 0] from rfl]
    rw [Option.some_bind, hcp, thinkIter_BC5_first, backprop_t5i]
  show (Vanilla.thinkLoop BC5 pickFirst pickFirst 1 0 1).bind
    (Vanilla.thinkIter BC5 pickFirst pickFirst 1 0 (BC5.current_player 0))
    = some t5a
  rw [l1, Option.some_bind, hcp, thinkIter_BC5_second]

/-- C5 (counterexample): on the rules engine `BC5` (two actions from the
initial state, both leading to terminal losing states), after `N = 2`
iterations of `think`'s loop in `mcts_vanilla.py` the root's `visits` is 1,
not 2: the second iteration descends to the terminal child, `expand_leaf`
returns `None` for it, and `backpropagate(None, ..)` is a no-op, so that
iteration's backpropagation never reaches the root. -/
theorem C5_counterexample :
    (Vanilla.thinkLoop BC5 pickFirst pickFirst 1 0 2).map rootVisits = some 1
    ∧ (Vanilla.thinkLoop BC5 pickFirst pickFirst 1 0 2).map rootVisits
        ≠ some 2 := by
  rw [thinkLoop_BC5_two]
  exact ⟨rfl, by simp [rootVisits, getN, t5a]⟩

theorem bump_visits_le {α} (won : Bool) (t : MCTree α) (i k : Nat) :
    (getN (bump won t i) k).visits ≤ (getN t k).visits + 1 := by
  by_cases hik : i = k
  · subst hik
    by_cases hl : i < t.length
    · rw [getN_bump_self won t i hl]
    · unfold bump
      rw [List.set_eq_of_length_le (Nat.le_of_not_lt hl)]
      omega
  · rw [getN_bump_ne won t i k hik]
    omega

theorem backpropFrom_visits_le {α} (won : Bool) :
    ∀ (i : Nat) (t : MCTree α) (k : Nat),
      (getN (backpropFrom won t i) k).visits ≤ (getN t k).visits + 1 := by
  intro i
  induction i using Nat.strong_induction_on with
  | _ i ih =>
    intro t k
    rw [backpropFrom]
    cases hp : (getN (bump won t i) i).parent with
    | none => exact bump_visits_le won t i k
    | some p =>
      by_cases h : p < i
      · simp only [dif_pos h]
        by_cases hpk : p < k
        · rw [getN_backpropFrom_untouched won p (bump won t i) k hpk]
          exact bump_visits_le won t i k
        · have hki : k ≠ i := by omega
          have := ih p h (bump won t i) k
          rw [getN_bump_ne won t i k (Ne.symm hki)] at this
          exact this
      · simp only [dif_neg h]
        exact bump_visits_le won t i k

theorem expand_leaf_rootVisits {σ α : Type} [DecidableEq α] (b : Board σ α)
    (pick : List α → Option α) (t : MCTree α) (node : Nat) (state : σ)
    (t' : MCTree α) (oj : Option Nat) (s' : σ)
    (h : Vanilla.expand_leaf b pick t node state = some (t', oj, s')) :
    (getN t' 0).visits = (getN t 0).visits := by
  unfold Vanilla.expand_leaf at h
  by_cases hemp : (getN t node).untried_actions.isEmpty = false
  · rw [if_pos hemp] at h
    cases hpick : pick (getN t node).untried_actions with
    | none => rw [hpick] at h; exact absurd h (by simp)
    | some action =>
      rw [hpick] at h
      simp only [Option.some.injEq, Prod.mk.injEq] at h
      obtain ⟨ht', _, _⟩ := h
      have hlen : 0 < t.length := by
        rcases Nat.eq_zero_or_pos t.length with h0 | h0
        · exfalso
          have ht : t = [] := List.length_eq_zero.1 h0
          rw [ht] at hemp
          simp [getN] at hemp
          exact hemp rfl
        · exact h0
      rw [← ht', getN_append_lt _ _ 0 (by simpa using hlen)]
      exact getN_set_visits t node 0 _ rfl
  · rw [if_neg hemp] at h
    simp only [Option.some.injEq, Prod.mk.injEq] at h
    obtain ⟨ht', _, _⟩ := h
    rw [← ht']

theorem thinkIter_rootVisits_le {σ α : Type} [DecidableEq α] (b : Board σ α)
    (pick pickR : List α → Option α) (rfuel : Nat) (current_state : σ)
    (bot_identity : Int) (t t2 : MCTree α)
    (h : Vanilla.thinkIter b pick pickR rfuel current_state bot_identity t
      = some t2) :
    (getN t2 0).visits ≤ (getN t 0).visits + 1 := by
  unfold Vanilla.thinkIter at h
  cases htrav : Vanilla.traverse_nodes b t (t.length + 1) 0 current_state false with
  | none => rw [htrav] at h; simp at h
  | some pr =>
    obtain ⟨i, s⟩ := pr
    rw [htrav] at h
    simp only [Option.bind_eq_bind, Option.some_bind] at h
    cases hexp : Vanilla.expand_leaf b pick t i s with
    | none => rw [hexp] at h; simp at h
    | some r =>
      obtain ⟨t', oj, s'⟩ := r
      rw [hexp] at h
      simp only [Option.bind_eq_bind, Option.some_bind] at h
      cases hroll : Vanilla.rollout b pickR rfuel s' with
      | none => rw [hroll] at h; simp at h
      | some terminal_state =>
        rw [hroll] at h
        simp only [Option.bind_eq_bind, Option.some_bind] at h
        cases hwin : is_winB b terminal_state bot_identity with
        | none => rw [hwin] at h; simp at h
        | some win =>
          rw [hwin] at h
          simp only [Option.bind_eq_bind, Option.some_bind, Option.some.injEq] at h
          have hexp0 := expand_leaf_rootVisits b pick t i s t' oj s' hexp
          cases oj with
          | none =>
            rw [← h]
            simp only [backpropagate]
            omega
          | some j =>
            rw [← h]
            simp only [backpropagate]
            have := backpropFrom_visits_le win j t' 0
            omega

/-- C5 (amended): after `N` completed iterations of `think`'s loop in
`mcts_vanilla.py`, `root.visits ≤ N` — each iteration increments the root's
visit counter by at most one, and an iteration whose selection reaches a
node with no untried actions performs no backpropagation at all (its
expansion returns `None`), so equality can fail (see the counterexample,
where `root.visits = 1` after 2 iterations). -/
theorem C5_amended {σ α : Type} [DecidableEq α] (b : Board σ α)
    (pick pickR : List α → Option α) (rfuel : Nat) (current_state : σ)
    (N : Nat) (t : MCTree α)
    (h : Vanilla.thinkLoop b pick pickR rfuel current_state N = some t) :
    rootVisits t ≤ N := by
  induction N generalizing t with
  | zero =>
    have ht : t = [Vanilla.rootNode b current_state] := by
      have h' : some [Vanilla.rootNode b current_state] = some t := h
      exact (Option.some.inj h').symm
    rw [ht]
    simp [rootVisits, getN, Vanilla.rootNode]
  | succ n ih =>
    unfold Vanilla.thinkLoop at h
    cases hprev : Vanilla.thinkLoop b pick pickR rfuel current_state n with
    | none => rw [hprev] at h; simp at h
    | some tp =>
      rw [hprev] at h
      simp only [Option.bind_eq_bind, Option.some_bind] at h
      have h1 := ih tp hprev
      have h2 := thinkIter_rootVisits_le b pick pickR rfuel current_state
        (b.current_player current_state) tp t h
      unfold rootVisits at h1 ⊢
      omega

/-- Witness for C5 (amended) at budget `N = 0` on `BC5`. -/
theorem C5_amended_witness :
    rootVisits [Vanilla.rootNode BC5 0] ≤ 0 :=
  C5_amended BC5 pickFirst pickFirst 1 0 0 [Vanilla.rootNode BC5 0] rfl
